import Mathlib

/-!
Verification of the comment-filtering pipeline of `ytc-analyzer`
(`Scripts/analyze_video.py` and the configuration sanitisation in
`Scripts/server.py`).

The Python `DataFrame` of comments is embedded as a `List Comment` (rows in
order); the `reasons` dict is embedded as an insertion-ordered association
list; per-comment model capabilities (lingua language detection, VADER
sentiment, rapidfuzz similarity) are parameters of the pipeline, with
`Option` results modelling a raised exception for the fallible ones.
-/

namespace YTC

/-- One comment row: `id`, `text` and `like_count` are the columns the
filtering pipeline reads. -/
structure Comment where
  id : String
  text : String
  like_count : Int
  deriving DecidableEq, Repr

/-- The keyword arguments of `filter_low_value`, with the Python defaults. -/
structure Config where
  min_chars : Bool := true
  min_chars_threshold : Nat := 20
  min_alpha : Bool := true
  min_words : Bool := true
  min_words_threshold : Nat := 3
  blacklist_match : Bool := true
  emoji_only : Bool := true
  url_only : Bool := true
  timestamp_only : Bool := true
  repeat_char : Bool := true
  english_only : Bool := true
  english_confidence : ℚ := mkRat 1 2
  sentiment_filter : Bool := true
  sentiment_threshold : ℚ := -(mkRat 4 5)
  dedup : Bool := true
  dedup_threshold : Int := 85
  deriving Repr

/-- The optional model capabilities of `analyze_video.py`.  A `none` result of
`langConfidence` or `vaderCompound` models the library call raising an
exception on that text.  `fuzzRatio` models `rapidfuzz.fuzz.ratio`, a
similarity score in `[0, 100]`. -/
structure Caps where
  linguaAvailable : Bool
  langConfidence : String → Option ℚ
  vaderAvailable : Bool
  vaderCompound : String → Option ℚ
  rapidfuzzAvailable : Bool
  fuzzRatio : String → String → ℚ

/-! ## String primitives

Embeddings of the Python string operations used by the pipeline.  Python
`str.strip` / `str.lower` / `len` / `str.split()` are modelled on the list of
characters of the Lean string. -/

/-- Python `str.strip()`: drop leading and trailing whitespace. -/
def stripChars (l : List Char) : List Char :=
  ((l.dropWhile Char.isWhitespace).reverse.dropWhile Char.isWhitespace).reverse

/-- Python `str.strip()` on a string. -/
def pyStrip (s : String) : String := String.mk (stripChars s.toList)

/-- Python `str.lower()` (ASCII model). -/
def pyLower (s : String) : String := String.mk (s.toList.map Char.toLower)

/-- Python `len(s)`: number of code points. -/
def pyLen (s : String) : Nat := s.toList.length

/-- ASCII letter, the character class `[a-zA-Z]` of the `min_alpha` check. -/
def isAsciiAlpha (c : Char) : Bool :=
  ('a' ≤ c && c ≤ 'z') || ('A' ≤ c && c ≤ 'Z')

/-- The count `df["text"].str.count(r"[a-zA-Z]")`. -/
def countAlpha (s : String) : Nat := (s.toList.filter isAsciiAlpha).length

/-- Helper for Python `str.split()`: maximal runs of non-whitespace. -/
def wordsAux : List Char → List Char → List (List Char)
  | [], cur => if cur.isEmpty then [] else [cur.reverse]
  | c :: rest, cur =>
    if c.isWhitespace then
      if cur.isEmpty then wordsAux rest [] else cur.reverse :: wordsAux rest []
    else wordsAux rest (c :: cur)

/-- Python `len(s.split())`: number of whitespace-delimited words. -/
def wordCount (s : String) : Nat := (wordsAux s.toList []).length

/-- A code point matched by the `_EMOJI_FALLBACK_RE` character class of
`analyze_video.py` (the regex fallback of `_strip_emoji`). -/
def isEmojiChar (c : Char) : Bool :=
  (0x1F300 ≤ c.toNat && c.toNat ≤ 0x1FFFF) ||
  (0x2600 ≤ c.toNat && c.toNat ≤ 0x27FF) ||
  (0xFE00 ≤ c.toNat && c.toNat ≤ 0xFE0F)

/-- The `_strip_emoji` fallback: delete every emoji code point. -/
def stripEmoji (s : String) : String :=
  String.mk (s.toList.filter fun c => !isEmojiChar c)

/-- Case-insensitive literal match at the head of a character list. -/
def startsWithCI (pat : List Char) (l : List Char) : Bool :=
  pat == (l.take pat.length).map Char.toLower

/-- Length of the match of `_URL_RE` (`https?://\S+|www\.\S+`, IGNORECASE)
anchored at the head of `cs`, or `none` when no alternative matches here. -/
def urlMatchLen (cs : List Char) : Option Nat :=
  let base? : Option Nat :=
    if startsWithCI "https://".toList cs then some 8
    else if startsWithCI "http://".toList cs then some 7
    else if startsWithCI "www.".toList cs then some 4
    else none
  match base? with
  | none => none
  | some base =>
    let tl := (cs.drop base).takeWhile fun c => !c.isWhitespace
    if tl.length = 0 then none else some (base + tl.length)

/-- Recursive worker for `_URL_RE.sub("", t)`.  Each step consumes at least
one character, so fuel equal to the length of the list is exact. -/
def stripUrlsGo : Nat → List Char → List Char
  | 0, l => l
  | _ + 1, [] => []
  | fuel + 1, c :: rest =>
    match urlMatchLen (c :: rest) with
    | some k => stripUrlsGo fuel ((c :: rest).drop k)
    | none => c :: stripUrlsGo fuel rest

/-- Python `_URL_RE.sub("", t)`: delete every URL-shaped token. -/
def stripUrls (s : String) : String :=
  String.mk (stripUrlsGo s.toList.length s.toList)

/-- The character class `\d` (ASCII model) of `_TIMESTAMP_RE`. -/
def allDigits (l : List Char) : Bool := l.all Char.isDigit

/-- Python `_TIMESTAMP_RE.fullmatch(t)` for `^(\d+:)?\d{1,2}:\d{2}$`. -/
def timestampMatch (s : String) : Bool :=
  match s.toList.splitOn ':' with
  | [a, b] => allDigits a && 1 ≤ a.length && a.length ≤ 2 && allDigits b && b.length = 2
  | [a, b, c] => allDigits a && 1 ≤ a.length && allDigits b && 1 ≤ b.length &&
      b.length ≤ 2 && allDigits c && c.length = 2
  | _ => false

/-- ASCII letter or digit, the class `[a-zA-Z0-9]` of `_REPEAT_CHAR_RE`. -/
def isAsciiAlnum (c : Char) : Bool :=
  isAsciiAlpha c || ('0' ≤ c && c ≤ '9')

/-- Scanner for `_REPEAT_CHAR_RE` (`([a-zA-Z0-9])\1{4,}`): tracks the current
run of identical characters and reports once an alphanumeric run reaches 5. -/
def repeatRunGo : List Char → Char → Nat → Bool
  | [], prev, run => 5 ≤ run && isAsciiAlnum prev
  | c :: rest, prev, run =>
    if 5 ≤ run && isAsciiAlnum prev then true
    else if c = prev then repeatRunGo rest prev (run + 1)
    else repeatRunGo rest c 1

/-- Python `bool(_REPEAT_CHAR_RE.search(t))`. -/
def hasRepeatChar (s : String) : Bool :=
  match s.toList with
  | [] => false
  | c :: rest => repeatRunGo rest c 1

/-! ## Union-find (`_near_dedup_remove_all`)

The Python `parent` array is a `List Nat`; the mutating `_find` (with path
halving: `parent[x] = parent[parent[x]]`) is explicit state passing with fuel.
Fuel `parent.length` is always sufficient because parent chains are acyclic
and visit distinct indices, which is proved below. -/

/-- The Python `_find` with path halving: returns the root and the updated
parent array. -/
def ffind : Nat → List Nat → Nat → Nat × List Nat
  | 0, p, x => (x, p)
  | fuel + 1, p, x =>
    let px := p.getD x x
    if px = x then (x, p)
    else
      let g := p.getD px px
      ffind fuel (p.set x g) g

/-- The Python `_union`: find both roots (mutating), then graft one onto
the other when they differ. -/
def ufUnion (p : List Nat) (x y : Nat) : List Nat :=
  let fx := ffind p.length p x
  let fy := ffind fx.2.length fx.2 y
  if fx.1 ≠ fy.1 then fy.2.set fx.1 fy.1 else fy.2

/-- The index pairs of the double loop `for i in range(n): for j in
range(i+1, n)`, in iteration order. -/
def pairsUpTo (n : Nat) : List (Nat × Nat) :=
  (List.range n).flatMap fun i =>
    (List.range n).filterMap fun j => if i < j then some (i, j) else none

/-- The union loop of `_near_dedup_remove_all`: union every pair whose
similarity is at least the threshold. -/
def nearDedupParent (ratio : String → String → ℚ) (thr : ℚ)
    (texts : List String) : List Nat :=
  (pairsUpTo texts.length).foldl
    (fun p ij =>
      if thr ≤ ratio (texts.getD ij.1 "") (texts.getD ij.2 "") then
        ufUnion p ij.1 ij.2
      else p)
    (List.range texts.length)

/-- A pass of `_find(i) for i in range(n)`: the roots in order, and the
parent array threaded through the mutating finds. -/
def findAll (p : List Nat) (idxs : List Nat) : List Nat × List Nat :=
  idxs.foldl (fun acc i =>
    let f := ffind acc.2.length acc.2 i
    (acc.1 ++ [f.1], f.2)) ([], p)

/-- `_near_dedup_remove_all(df, threshold)`: build the union-find over all
pairs, count group sizes (`Counter(_find(i) ...)`), and keep exactly the rows
whose group is a singleton. -/
def nearDedupRemoveAll (ratio : String → String → ℚ) (df : List Comment)
    (thr : ℚ) : List Comment :=
  let texts := df.map Comment.text
  let n := texts.length
  let p0 := nearDedupParent ratio thr texts
  let pass1 := findAll p0 (List.range n)
  let pass2 := findAll pass1.2 (List.range n)
  ((df.zip pass2.1).filter fun cr => pass1.1.count cr.2 = 1).map Prod.fst

/-! ## The pipeline `filter_low_value` -/

/-- The `reasons` dict: an association list from comment id to the label of
the rule that removed it, in insertion order. -/
abbrev Reasons := List (String × String)

/-- Python `dict.setdefault`: insert only when the key is absent. -/
def setdefault (r : Reasons) (k v : String) : Reasons :=
  match r.lookup k with
  | some _ => r
  | none => r ++ [(k, v)]

/-- The inner `_apply(mask, label)` of `filter_low_value` followed by
`df = df[mask]`: record a reason for every row failing `keep`, then narrow
the working set to the rows passing it. -/
def applyStage (keep : Comment → Bool) (label : String)
    (st : List Comment × Reasons) : List Comment × Reasons :=
  let removed := ((st.1.filter fun c => !keep c).map Comment.id)
  (st.1.filter keep, removed.foldl (fun r cid => setdefault r cid label) st.2)

/-- Keep-predicate of the `min_chars` check. -/
def keepMinChars (cfg : Config) (c : Comment) : Bool :=
  cfg.min_chars_threshold ≤ pyLen c.text

/-- Keep-predicate of the `min_alpha` check (fixed threshold 2). -/
def keepMinAlpha (c : Comment) : Bool := 2 ≤ countAlpha c.text

/-- Keep-predicate of the `min_words` check. -/
def keepMinWords (cfg : Config) (c : Comment) : Bool :=
  cfg.min_words_threshold ≤ wordCount c.text

/-- Keep-predicate of the blacklist check: the lowercased, stripped text is
not in the blacklist set. -/
def keepBlacklist (bl : List String) (c : Comment) : Bool :=
  !(bl.contains (pyStrip (pyLower c.text)))

/-- Keep-predicate of the `emoji_only` check. -/
def keepEmoji (c : Comment) : Bool := 2 ≤ pyLen (pyStrip (stripEmoji c.text))

/-- Keep-predicate of the `url_only` check. -/
def keepUrl (c : Comment) : Bool := 2 ≤ pyLen (pyStrip (stripUrls c.text))

/-- Keep-predicate of the `timestamp_only` check. -/
def keepTimestamp (c : Comment) : Bool := !timestampMatch c.text

/-- Keep-predicate of the `repeat_char` check. -/
def keepRepeat (c : Comment) : Bool := !hasRepeatChar c.text

/-- The inner `_is_english` of `filter_low_value`: confidence at least the
configured minimum, and `True` (keep) when the detector raises. -/
def isEnglish (caps : Caps) (cfg : Config) (t : String) : Bool :=
  match caps.langConfidence t with
  | none => true
  | some conf => cfg.english_confidence ≤ conf

/-- Keep-predicate of the `english_only` check. -/
def keepEnglish (caps : Caps) (cfg : Config) (c : Comment) : Bool :=
  isEnglish caps cfg c.text

/-- Keep-predicate of the `sentiment_filter` check (defined on texts where
the analyzer does not raise; the pipeline fails before using the default). -/
def keepSentiment (caps : Caps) (cfg : Config) (c : Comment) : Bool :=
  cfg.sentiment_threshold < (caps.vaderCompound c.text).getD 0

/-- Stage 5 (`sentiment_filter`): VADER has no per-comment exception handler
in the source, so a raising `polarity_scores` aborts the whole call; this is
modelled by `Except.error`. -/
def sentimentStep (caps : Caps) (cfg : Config)
    (st : List Comment × Reasons) : Except Unit (List Comment × Reasons) :=
  if cfg.sentiment_filter && caps.vaderAvailable then
    if st.1.all fun c => (caps.vaderCompound c.text).isSome then
      Except.ok (applyStage (keepSentiment caps cfg) "Negative Sentiment" st)
    else Except.error ()
  else Except.ok st

/-- Normalisation of the exact-duplicate phase:
`df["text"].str.lower().str.strip()`. -/
def exactDupNorm (c : Comment) : String := pyStrip (pyLower c.text)

/-- Keep-predicate of `~norm.duplicated(keep=False)` relative to the current
working set: the normalised text occurs exactly once. -/
def keepExact (df : List Comment) (c : Comment) : Bool :=
  (df.filter fun c2 => exactDupNorm c2 == exactDupNorm c).length = 1

/-- Stage 6 (`dedup`): exact-duplicate removal (unconditional under the
gate), then `_near_dedup_remove_all` when rapidfuzz is available and
`dedup_threshold < 100`, recording reason "Duplicate" for every id that did
not survive. -/
def dedupStage (caps : Caps) (cfg : Config)
    (st : List Comment × Reasons) : List Comment × Reasons :=
  let st1 := applyStage (keepExact st.1) "Duplicate" st
  if caps.rapidfuzzAvailable && cfg.dedup_threshold < 100 then
    let dfBefore := st1.1
    let dfAfter := nearDedupRemoveAll caps.fuzzRatio dfBefore (cfg.dedup_threshold : ℚ)
    let keptIds := dfAfter.map Comment.id
    (dfAfter,
      (dfBefore.map Comment.id).foldl
        (fun r cid => if keptIds.contains cid then r else setdefault r cid "Duplicate")
        st1.2)
  else st1

/-- The full `filter_low_value(df, ...)`: strip every text, then run the
enabled stages cheapest-first, threading the working set and the reason map.
`Except.error ()` models an uncaught exception of the sentiment stage. -/
def filter_low_value (caps : Caps) (cfg : Config) (bl : List String)
    (df0 : List Comment) : Except Unit (List Comment × Reasons) :=
  let df := df0.map fun c => { c with text := pyStrip c.text }
  let st : List Comment × Reasons := (df, [])
  let st := if cfg.min_chars then applyStage (keepMinChars cfg) "Too Short" st else st
  let st := if cfg.min_alpha then applyStage keepMinAlpha "No Alpha" st else st
  let st := if cfg.min_words then applyStage (keepMinWords cfg) "Too Few Words" st else st
  let st := if cfg.blacklist_match && !bl.isEmpty then
      applyStage (keepBlacklist bl) "Blacklisted" st else st
  let st := if cfg.emoji_only then applyStage keepEmoji "Emoji Only" st else st
  let st := if cfg.url_only then applyStage keepUrl "URL Only" st else st
  let st := if cfg.timestamp_only then applyStage keepTimestamp "Timestamp" st else st
  let st := if cfg.repeat_char then applyStage keepRepeat "Repeated Chars" st else st
  let st := if cfg.english_only && caps.linguaAvailable then
      applyStage (keepEnglish caps cfg) "Non-English" st else st
  match sentimentStep caps cfg st with
  | Except.error e => Except.error e
  | Except.ok st2 =>
    Except.ok (if cfg.dedup then dedupStage caps cfg st2 else st2)

/-! ## Configuration sanitisation (`server.py`)

`_run_analysis_inner` builds the keyword arguments passed to
`filter_low_value` from the raw frontend settings: recognised boolean keys
are coerced with `bool(...)`, recognised numeric keys are converted with
`int(...)`/`float(...)` and clamped with `max(lo, min(hi, val))` (a failing
conversion silently skips the key), and every other key is dropped. -/

/-- A raw JSON-ish setting value: a number, a boolean, or anything on which
the numeric conversion would raise (`rjunk`). -/
inductive RawVal where
  | rnum (q : ℚ)
  | rbool (b : Bool)
  | rjunk
  deriving DecidableEq, Repr

/-- Python `bool(v)` on a raw value (any non-empty junk object is truthy). -/
def rawToBool : RawVal → Bool
  | RawVal.rnum q => q ≠ 0
  | RawVal.rbool b => b
  | RawVal.rjunk => true

/-- Python `int(v)`: truncation toward zero on numbers, `1`/`0` on booleans,
and `none` (exception) on junk. -/
def rawToInt : RawVal → Option Int
  | RawVal.rnum q => some (Int.tdiv q.num (q.den : Int))
  | RawVal.rbool b => some (if b then 1 else 0)
  | RawVal.rjunk => none

/-- Python `float(v)`. -/
def rawToFloatQ : RawVal → Option ℚ
  | RawVal.rnum q => some q
  | RawVal.rbool b => some (if b then 1 else 0)
  | RawVal.rjunk => none

/-- The raw `filter_settings` dict: first occurrence of a key wins. -/
abbrev RawSettings := List (String × RawVal)

/-- The `_FILTER_BOOL_KEYS` frozenset of `server.py`. -/
def filterBoolKeys : List String :=
  ["min_chars", "min_alpha", "min_words",
   "emoji_only", "url_only", "timestamp_only",
   "repeat_char", "blacklist_match", "english_only",
   "sentiment_filter", "dedup"]

/-- The keys of the `_FILTER_NUM_KEYS` table of `server.py`. -/
def filterNumKeys : List String :=
  ["min_chars_threshold", "min_words_threshold", "sentiment_threshold",
   "english_confidence", "dedup_threshold"]

/-- A key the settings builder recognises; every other key is dropped. -/
def recognizedKey (k : String) : Bool :=
  filterBoolKeys.contains k || filterNumKeys.contains k

/-- Clamp `max(lo, min(hi, v))`. -/
def clampQ (lo hi v : ℚ) : ℚ := max lo (min hi v)

/-- Override one boolean field when its key is among the raw settings. -/
def boolSetting (raw : RawSettings) (key : String) (dflt : Bool) : Bool :=
  match raw.lookup key with
  | some v => rawToBool v
  | none => dflt

/-- Override one numeric field: convert, clamp into `[lo, hi]`, and keep the
default when the key is absent or the conversion raises. -/
def numSetting (raw : RawSettings) (conv : RawVal → Option ℚ)
    (key : String) (lo hi dflt : ℚ) : ℚ :=
  match raw.lookup key with
  | some v =>
    match conv v with
    | some q => clampQ lo hi q
    | none => dflt
  | none => dflt

/-- The integer-typed variant: Python applies `int(...)` first and then
clamps with integer bounds. -/
def numSettingInt (raw : RawSettings) (key : String) (lo hi dflt : Int) : Int :=
  match raw.lookup key with
  | some v =>
    match rawToInt v with
    | some n => max lo (min hi n)
    | none => dflt
  | none => dflt

/-- The configuration with which `server.py` invokes `filter_low_value`:
defaults of the pipeline, overridden by the sanitised frontend settings
(the `filter_kwargs` construction of `_run_analysis_inner`, including the
`_FILTER_NUM_KEYS` bounds table). -/
def buildConfig (raw : RawSettings) : Config where
  min_chars := boolSetting raw "min_chars" true
  min_chars_threshold := (numSettingInt raw "min_chars_threshold" 1 50 20).toNat
  min_alpha := boolSetting raw "min_alpha" true
  min_words := boolSetting raw "min_words" true
  min_words_threshold := (numSettingInt raw "min_words_threshold" 1 10 3).toNat
  blacklist_match := boolSetting raw "blacklist_match" true
  emoji_only := boolSetting raw "emoji_only" true
  url_only := boolSetting raw "url_only" true
  timestamp_only := boolSetting raw "timestamp_only" true
  repeat_char := boolSetting raw "repeat_char" true
  english_only := boolSetting raw "english_only" true
  english_confidence := numSetting raw rawToFloatQ "english_confidence" 0 1 (mkRat 1 2)
  sentiment_filter := boolSetting raw "sentiment_filter" true
  sentiment_threshold := numSetting raw rawToFloatQ "sentiment_threshold" (-1) 0 (-(mkRat 4 5))
  dedup := boolSetting raw "dedup" true
  dedup_threshold := numSettingInt raw "dedup_threshold" 50 100 85

/-! ## A model of `rapidfuzz.fuzz.ratio`

The external fuzzy-similarity capability (spec &sect;6).  Modelled from the
spec: a normalised indel-distance-derived ratio in `[0, 100]`,
`100 * (1 - dist/(|a|+|b|))`, that is `200 * lcs(a,b) / (|a|+|b|)`.  It is used only
to instantiate capability parameters in concrete witnesses. -/

/-- One row update of the longest-common-subsequence dynamic program. -/
def lcsStepGo (c : Char) : List Char → List Nat → Nat → Nat → List Nat
  | [], _, _, _ => []
  | b :: bs, rtail, diag, left =>
    match rtail with
    | [] => []
    | rj :: rrest =>
      let nj := if c = b then diag + 1 else max rj left
      nj :: lcsStepGo c bs rrest rj nj

/-- Extend the LCS row by one character of the first string. -/
def lcsStep (c : Char) (bs : List Char) (row : List Nat) : List Nat :=
  match row with
  | [] => []
  | r0 :: rest => 0 :: lcsStepGo c bs rest r0 0

/-- Length of the longest common subsequence. -/
def lcsLen (a b : List Char) : Nat :=
  (a.foldl (fun row c => lcsStep c b row) (List.replicate (b.length + 1) 0)).getLastD 0

/-- The indel similarity ratio of `rapidfuzz.fuzz.ratio`, in `[0, 100]`. -/
def indelRatio (s t : String) : ℚ :=
  let la := s.toList.length
  let lb := t.toList.length
  if la + lb = 0 then 100
  else mkRat (200 * (lcsLen s.toList t.toList : Int)) (la + lb)

/-! ## Stage-composition lemmas

The nine pointwise stages before the sentiment step, and the optional
sentiment stage itself, are each an `applyStage` guarded by a gate.  They are
re-expressed as a fold over the list of enabled stages, which makes the
working set a single `List.filter`. -/

/-- A stage: its keep-predicate and its reason label. -/
abbrev Stage := (Comment → Bool) × String

/-- Fold a list of stages over a working state. -/
def stApply (ss : List Stage) (st : List Comment × Reasons) :
    List Comment × Reasons :=
  ss.foldl (fun st s => applyStage s.1 s.2 st) st

/-- The pointwise stages enabled by a configuration, in pipeline order
(stages 1-4 of `filter_low_value`, before the sentiment step). -/
def stageList (caps : Caps) (cfg : Config) (bl : List String) : List Stage :=
  (if cfg.min_chars then [(keepMinChars cfg, "Too Short")] else []) ++
  (if cfg.min_alpha then [(keepMinAlpha, "No Alpha")] else []) ++
  (if cfg.min_words then [(keepMinWords cfg, "Too Few Words")] else []) ++
  (if cfg.blacklist_match && !bl.isEmpty then [(keepBlacklist bl, "Blacklisted")] else []) ++
  (if cfg.emoji_only then [(keepEmoji, "Emoji Only")] else []) ++
  (if cfg.url_only then [(keepUrl, "URL Only")] else []) ++
  (if cfg.timestamp_only then [(keepTimestamp, "Timestamp")] else []) ++
  (if cfg.repeat_char then [(keepRepeat, "Repeated Chars")] else []) ++
  (if cfg.english_only && caps.linguaAvailable then [(keepEnglish caps cfg, "Non-English")] else [])

/-- The sentiment stage as a (possibly empty) stage list. -/
def sentStageList (caps : Caps) (cfg : Config) : List Stage :=
  if cfg.sentiment_filter && caps.vaderAvailable then
    [(keepSentiment caps cfg, "Negative Sentiment")] else []

/-- All pointwise stages including sentiment. -/
def stageListFull (caps : Caps) (cfg : Config) (bl : List String) : List Stage :=
  stageList caps cfg bl ++ sentStageList caps cfg

/-- A comment passes every stage of a stage list. -/
def passesAll (ss : List Stage) (c : Comment) : Bool :=
  ss.all fun s => s.1 c

/-- Text-stripping of one row at pipeline entry
(`df["text"] = df["text"].fillna("").astype(str).str.strip()`). -/
def stripRow (c : Comment) : Comment := { c with text := pyStrip c.text }


/-- Bookkeeping invariant threaded through the pipeline: the working set is a
sublist of the (stripped) input, and the reason keys are exactly the ids
dropped so far, each recorded once. -/
structure StInv (orig : List Comment) (st : List Comment × Reasons) : Prop where
  sub : List.Sublist st.1 orig
  keysNodup : (st.2.map Prod.fst).Nodup
  keysIff : ∀ k, (st.2.lookup k).isSome ↔
    (k ∈ orig.map Comment.id ∧ k ∉ st.1.map Comment.id)
  lens : st.1.length + st.2.length = orig.length


/-- Configuration order: the first configuration disables a subset of the
boolean gates of the second while keeping every numeric threshold fixed. -/
def gatesLE (c1 c2 : Config) : Prop :=
  (c1.min_chars = true → c2.min_chars = true) ∧
  (c1.min_alpha = true → c2.min_alpha = true) ∧
  (c1.min_words = true → c2.min_words = true) ∧
  (c1.blacklist_match = true → c2.blacklist_match = true) ∧
  (c1.emoji_only = true → c2.emoji_only = true) ∧
  (c1.url_only = true → c2.url_only = true) ∧
  (c1.timestamp_only = true → c2.timestamp_only = true) ∧
  (c1.repeat_char = true → c2.repeat_char = true) ∧
  (c1.english_only = true → c2.english_only = true) ∧
  (c1.sentiment_filter = true → c2.sentiment_filter = true) ∧
  (c1.dedup = true → c2.dedup = true) ∧
  c1.min_chars_threshold = c2.min_chars_threshold ∧
  c1.min_words_threshold = c2.min_words_threshold ∧
  c1.english_confidence = c2.english_confidence ∧
  c1.sentiment_threshold = c2.sentiment_threshold ∧
  c1.dedup_threshold = c2.dedup_threshold

instance gatesLE_decidable (c1 c2 : Config) : Decidable (gatesLE c1 c2) := by
  unfold gatesLE
  infer_instance


/-! ## Concrete capability fixtures for witnesses -/

set_option maxRecDepth 200000

/-- All capabilities available, never raising: English confidence 1,
sentiment compound 0, similarity given by the indel-ratio model. -/
def witnessCaps : Caps where
  linguaAvailable := true
  langConfidence := fun _ => some 1
  vaderAvailable := true
  vaderCompound := fun _ => some 0
  rapidfuzzAvailable := true
  fuzzRatio := indelRatio


/-- Capabilities whose language detector flags exactly the odd-cased variant
as non-English; similarity identically 0. -/
def c3Caps : Caps where
  linguaAvailable := true
  langConfidence := fun t =>
    if t = "This Is A Great Video Thanks" then some 0 else some 1
  vaderAvailable := true
  vaderCompound := fun _ => some 0
  rapidfuzzAvailable := true
  fuzzRatio := fun _ _ => 0

/-- Two comments that are equal up to letter case. -/
def c3df : List Comment :=
  [⟨"a", "this is a great video thanks", 0⟩,
   ⟨"b", "This Is A Great Video Thanks", 0⟩]


/-- Capabilities whose sentiment analyzer raises on exactly one text and is
fine elsewhere. -/
def c4Caps : Caps where
  linguaAvailable := true
  langConfidence := fun _ => some 1
  vaderAvailable := true
  vaderCompound := fun t =>
    if t = "this video made me think a lot" then none else some 0
  rapidfuzzAvailable := true
  fuzzRatio := fun _ _ => 0

/-- Capabilities with a given similarity function and benign models. -/
def capsFor (r : String → String → ℚ) : Caps where
  linguaAvailable := true
  langConfidence := fun _ => some 1
  vaderAvailable := true
  vaderCompound := fun _ => some 0
  rapidfuzzAvailable := true
  fuzzRatio := r

/-! ## Specification vocabulary for the union-find analysis -/

/-- `RootedN p x r d`: following parent pointers from `x` reaches the
fixpoint `r` in exactly `d` steps (out-of-range reads default to the index
itself, as `getD` does). -/
inductive RootedN (p : List Nat) : Nat → Nat → Nat → Prop where
  | self (x : Nat) : p.getD x x = x → RootedN p x x 0
  | step (x r d : Nat) : p.getD x x ≠ x → RootedN p (p.getD x x) r d →
      RootedN p x r (d + 1)

/-- `x` reaches root `r`. -/
def Rooted (p : List Nat) (x r : Nat) : Prop := ∃ d, RootedN p x r d

/-- Two indices lie in the same union-find class. -/
def SameClass (p : List Nat) (a b : Nat) : Prop :=
  ∃ r, Rooted p a r ∧ Rooted p b r

/-- The node reached from `x` after `i` parent steps. -/
def chainIter (p : List Nat) : Nat → Nat → Nat
  | 0, x => x
  | i + 1, x => chainIter p i (p.getD x x)

/-- Every in-range parent pointer stays in range. -/
def UFclosed (p : List Nat) : Prop :=
  ∀ i, i < p.length → p.getD i i < p.length

/-- Every node reaches a root. -/
def UFtotal (p : List Nat) : Prop := ∀ x, ∃ r, Rooted p x r

/-- The similarity edge tested by the union loop, as a symmetric bounded
relation on row indices: the ordered pair `(min i j, max i j)` was compared
and scored at least the threshold. -/
def simEdgeB (ratio : String → String → ℚ) (thr : ℚ) (texts : List String)
    (i j : Nat) : Bool :=
  decide (i < texts.length) && decide (j < texts.length) &&
    (if i < j then decide (thr ≤ ratio (texts.getD i "") (texts.getD j ""))
     else if j < i then decide (thr ≤ ratio (texts.getD j "") (texts.getD i ""))
     else false)

/-- Row `i` has at least one similar partner row. -/
def hasPartner (ratio : String → String → ℚ) (thr : ℚ) (texts : List String)
    (i : Nat) : Bool :=
  (List.range texts.length).any fun j => simEdgeB ratio thr texts i j

/-- The label of the first stage of a stage list whose keep-predicate rejects
the comment, if any. -/
def firstFail : List Stage → Comment → Option String
  | [], _ => none
  | s :: rest, c => if s.1 c then firstFail rest c else some s.2

/-- Connectivity: the reflexive-symmetric-transitive closure of a relation on
row indices ("same connected component" of the similarity graph). -/
inductive Conn (R : Nat → Nat → Prop) : Nat → Nat → Prop where
  | rel (x y : Nat) : R x y → Conn R x y
  | refl (x : Nat) : Conn R x x
  | symm {x y : Nat} : Conn R x y → Conn R y x
  | trans {x y z : Nat} : Conn R x y → Conn R y z → Conn R x z

/-- Placeholder row used as the `getD` default in positional statements. -/
def cDefault : Comment := ⟨"", "", 0⟩

/-- One iteration of the union loop of `_near_dedup_remove_all`. -/
def unionStep (r : String → String → ℚ) (thr : ℚ) (texts : List String)
    (p : List Nat) (ij : Nat × Nat) : List Nat :=
  if thr ≤ r (texts.getD ij.1 "") (texts.getD ij.2 "") then ufUnion p ij.1 ij.2
  else p

/-- One iteration of a `_find(i) for i in range(n)` pass. -/
def findStep (acc : List Nat × List Nat) (i : Nat) : List Nat × List Nat :=
  (acc.1 ++ [(ffind acc.2.length acc.2 i).1], (ffind acc.2.length acc.2 i).2)

theorem stApply_append (a b : List Stage) (st : List Comment × Reasons) :
    stApply (a ++ b) st = stApply b (stApply a st) :=
  List.foldl_append _ _ _ _

theorem stage_if (g : Bool) (k : Comment → Bool) (l : String)
    (st : List Comment × Reasons) :
    (if g then applyStage k l st else st) =
      stApply (if g then [(k, l)] else []) st := by
  cases g <;> rfl

/-- `filter_low_value` re-expressed through `stApply`. -/
theorem filter_eq_stages (caps : Caps) (cfg : Config) (bl : List String)
    (df0 : List Comment) :
    filter_low_value caps cfg bl df0 =
      (let df := df0.map fun c => { c with text := pyStrip c.text }
       let st := stApply (stageList caps cfg bl) (df, [])
       if cfg.sentiment_filter && caps.vaderAvailable &&
          !(st.1.all fun c => (caps.vaderCompound c.text).isSome) then
         Except.error ()
       else
         let st2 := stApply (sentStageList caps cfg) st
         Except.ok (if cfg.dedup then dedupStage caps cfg st2 else st2)) := by
  unfold filter_low_value
  simp only [stage_if, ← stApply_append]
  rw [show (((((((((if cfg.min_chars then [(keepMinChars cfg, "Too Short")] else []) ++
      (if cfg.min_alpha then [(keepMinAlpha, "No Alpha")] else [])) ++
      (if cfg.min_words then [(keepMinWords cfg, "Too Few Words")] else [])) ++
      (if cfg.blacklist_match && !bl.isEmpty then [(keepBlacklist bl, "Blacklisted")] else [])) ++
      (if cfg.emoji_only then [(keepEmoji, "Emoji Only")] else [])) ++
      (if cfg.url_only then [(keepUrl, "URL Only")] else [])) ++
      (if cfg.timestamp_only then [(keepTimestamp, "Timestamp")] else [])) ++
      (if cfg.repeat_char then [(keepRepeat, "Repeated Chars")] else [])) ++
      (if cfg.english_only && caps.linguaAvailable then
        [(keepEnglish caps cfg, "Non-English")] else [])) = stageList caps cfg bl by
    simp [stageList, List.append_assoc]]
  unfold sentimentStep
  by_cases hs : cfg.sentiment_filter && caps.vaderAvailable
  · by_cases hall : ((stApply (stageList caps cfg bl)
        ((df0.map fun c => { c with text := pyStrip c.text }), ([] : Reasons))).1.all
          fun c => (caps.vaderCompound c.text).isSome)
    · simp only [hs, if_true, Bool.true_and, hall, Bool.not_true, Bool.and_false,
        Bool.false_eq_true, if_false, if_pos hall]
      simp only [sentStageList, hs, if_true, stApply_append, stApply,
        List.foldl_append, List.foldl_cons, List.foldl_nil]
    · simp only [Bool.not_eq_true] at hall
      simp only [hs, Bool.true_and, hall, Bool.not_false, Bool.and_true, if_true,
        Bool.false_eq_true, if_false]
  · simp only [Bool.not_eq_true] at hs
    simp only [hs, Bool.false_and, Bool.false_eq_true, if_false, sentStageList,
      List.append_nil, stApply, List.foldl_nil]
theorem applyStage_fst (k : Comment → Bool) (l : String)
    (st : List Comment × Reasons) :
    (applyStage k l st).1 = st.1.filter k := rfl

/-- The working set after a list of pointwise stages is a single filter. -/
theorem stApply_fst (ss : List Stage) (st : List Comment × Reasons) :
    (stApply ss st).1 = st.1.filter (passesAll ss) := by
  induction ss generalizing st with
  | nil =>
    exact (List.filter_eq_self.mpr fun a _ => by simp [passesAll]).symm
  | cons s rest ih =>
    show (stApply rest (applyStage s.1 s.2 st)).1 = _
    rw [ih, applyStage_fst, List.filter_filter]
    apply List.filter_congr
    intro c _
    simp [passesAll, Bool.and_comm]

/-- Monotonicity of `passesAll` under taking a sub-multiset of stages. -/
theorem passesAll_sublist {ss ss' : List Stage} (h : List.Sublist ss' ss) (c : Comment)
    (hc : passesAll ss c = true) : passesAll ss' c = true := by
  simp only [passesAll, List.all_eq_true] at hc ⊢
  exact fun s hs => hc s (h.subset hs)

theorem passesAll_append (a b : List Stage) (c : Comment) :
    passesAll (a ++ b) c = (passesAll a c && passesAll b c) := by
  simp [passesAll]

/-! ## Reason-map lemmas -/

theorem lookup_append (l1 l2 : Reasons) (k : String) :
    (l1 ++ l2).lookup k = ((l1.lookup k).orElse fun _ => l2.lookup k) := by
  induction l1 with
  | nil => rfl
  | cons a t ih =>
    by_cases h : k == a.1
    · simp [List.lookup, h]
    · simp only [Bool.not_eq_true] at h
      simp [List.lookup, h, ih]

theorem lookup_isSome_iff_mem_keys (r : Reasons) (k : String) :
    (r.lookup k).isSome ↔ k ∈ r.map Prod.fst := by
  induction r with
  | nil => simp [List.lookup]
  | cons a t ih =>
    by_cases h : k == a.1
    · simp only [beq_iff_eq] at h
      simp [List.lookup, h]
    · have h' : (k == a.1) = false := by simpa using h
      have h2 : ¬ k = a.1 := by simpa using h
      simp [List.lookup, h', ih, h2]

theorem lookup_pairs_isSome (ids : List String) (L k : String) :
    (((ids.map fun i => (i, L)).lookup k)).isSome ↔ k ∈ ids := by
  rw [lookup_isSome_iff_mem_keys]
  simp

/-- When all inserted keys are fresh and distinct, the `setdefault` fold is a
plain append. -/
theorem foldl_setdefault_eq (rs : Reasons) (ids : List String) (L : String)
    (hfresh : ∀ i ∈ ids, rs.lookup i = none) (hnd : ids.Nodup) :
    ids.foldl (fun r cid => setdefault r cid L) rs = rs ++ ids.map fun i => (i, L) := by
  induction ids generalizing rs with
  | nil => simp
  | cons i t ih =>
    have hi : rs.lookup i = none := hfresh i (by simp)
    have hset : setdefault rs i L = rs ++ [(i, L)] := by
      simp [setdefault, hi]
    rw [List.foldl_cons, hset, ih]
    · simp
    · intro j hj
      rw [lookup_append]
      have hj1 : rs.lookup j = none := hfresh j (by simp [hj])
      have hj2 : (j == i) = false := by
        simp only [beq_eq_false_iff_ne, ne_eq]
        rintro rfl
        exact (List.nodup_cons.mp hnd).1 hj
      simp [hj1, List.lookup, hj2]
    · exact (List.nodup_cons.mp hnd).2

theorem filter_length_split {α : Type} (l : List α) (p : α → Bool) :
    (l.filter p).length + (l.filter fun a => !p a).length = l.length := by
  induction l with
  | nil => rfl
  | cons a t ih =>
    by_cases h : p a <;> simp [List.filter_cons, h, ← ih] <;> omega

/-- Two members of a list whose ids are duplicate-free and share an id are
equal. -/
theorem eq_of_mem_of_id_eq {l : List Comment} (h : (l.map Comment.id).Nodup)
    {c c' : Comment} (hc : c ∈ l) (hc' : c' ∈ l) (hid : c.id = c'.id) : c = c' := by
  induction l with
  | nil => cases hc
  | cons a t ih =>
    rw [List.map_cons, List.nodup_cons] at h
    rcases List.mem_cons.mp hc with h1 | h1
    · rcases List.mem_cons.mp hc' with h2 | h2
      · rw [h1, h2]
      · exfalso
        apply h.1
        rw [← h1, hid]
        exact List.mem_map_of_mem Comment.id h2
    · rcases List.mem_cons.mp hc' with h2 | h2
      · exfalso
        apply h.1
        rw [← h2, ← hid]
        exact List.mem_map_of_mem Comment.id h1
      · exact ih h.2 h1 h2

theorem StInv.init (orig : List Comment) : StInv orig (orig, []) where
  sub := List.Sublist.refl _
  keysNodup := List.nodup_nil
  keysIff := by simp [List.lookup]
  lens := by simp

theorem isSome_orElse (a b : Option String) :
    ((a.orElse fun _ => b).isSome) = (a.isSome || b.isSome) := by
  cases a <;> rfl

/-- One `applyStage` preserves the bookkeeping invariant. -/
theorem stInv_applyStage {orig : List Comment} {st : List Comment × Reasons}
    (hids : (orig.map Comment.id).Nodup) (h : StInv orig st)
    (keep : Comment → Bool) (L : String) :
    StInv orig (applyStage keep L st) := by
  obtain ⟨hsub, hnd, hiff, hlen⟩ := h
  have hsubids : List.Sublist (st.1.map Comment.id) (orig.map Comment.id) :=
    hsub.map _
  have hnodup1 : (st.1.map Comment.id).Nodup := hids.sublist hsubids
  have hremsub : List.Sublist ((st.1.filter fun c => !keep c).map Comment.id)
      (st.1.map Comment.id) := (List.filter_sublist _).map _
  have hremnd : ((st.1.filter fun c => !keep c).map Comment.id).Nodup :=
    hnodup1.sublist hremsub
  have hfresh : ∀ i ∈ (st.1.filter fun c => !keep c).map Comment.id,
      st.2.lookup i = none := by
    intro i hi
    have himem : i ∈ st.1.map Comment.id := hremsub.subset hi
    have hnot : ¬ (st.2.lookup i).isSome = true := by
      rw [hiff]
      rintro ⟨-, hno⟩
      exact hno himem
    exact Option.not_isSome_iff_eq_none.mp hnot
  have hr2 : (applyStage keep L st).2 =
      st.2 ++ ((st.1.filter fun c => !keep c).map Comment.id).map fun i => (i, L) :=
    foldl_setdefault_eq _ _ _ hfresh hremnd
  have hkeptsub : List.Sublist ((st.1.filter keep).map Comment.id)
      (st.1.map Comment.id) := (List.filter_sublist _).map _
  constructor
  · exact (List.filter_sublist _).trans hsub
  · rw [hr2, List.map_append, List.map_map]
    have hmapfst : List.map (Prod.fst ∘ fun i => (i, L))
        ((st.1.filter fun c => !keep c).map Comment.id) =
        ((st.1.filter fun c => !keep c).map Comment.id) := List.map_id _
    rw [hmapfst]
    refine (List.nodup_append).mpr ⟨hnd, hremnd, ?_⟩
    intro q hq hq2
    have hqsome : (st.2.lookup q).isSome := by
      rw [lookup_isSome_iff_mem_keys]
      exact hq
    have := (hiff q).mp hqsome
    exact this.2 (hremsub.subset hq2)
  · intro q
    rw [hr2, lookup_append, isSome_orElse]
    simp only [Bool.or_eq_true, lookup_pairs_isSome, hiff q, applyStage_fst]
    constructor
    · rintro (⟨hqo, hqn⟩ | hqr)
      · refine ⟨hqo, fun hq => hqn (hkeptsub.subset hq)⟩
      · rw [List.mem_map] at hqr
        obtain ⟨c, hcf, rfl⟩ := hqr
        rw [List.mem_filter] at hcf
        refine ⟨hsubids.subset (List.mem_map_of_mem _ hcf.1), fun hq => ?_⟩
        rw [List.mem_map] at hq
        obtain ⟨c2, hc2f, hc2id⟩ := hq
        rw [List.mem_filter] at hc2f
        have : c = c2 := eq_of_mem_of_id_eq hnodup1 hcf.1 hc2f.1 hc2id.symm
        rw [this] at hcf
        rw [hc2f.2] at hcf
        simpa using hcf.2
    · rintro ⟨hqo, hqn⟩
      by_cases hq1 : q ∈ st.1.map Comment.id
      · right
        rw [List.mem_map] at hq1
        obtain ⟨c, hcm, rfl⟩ := hq1
        rw [List.mem_map]
        refine ⟨c, ?_, rfl⟩
        rw [List.mem_filter]
        refine ⟨hcm, ?_⟩
        by_cases hk : keep c
        · exact absurd (List.mem_map_of_mem Comment.id
            (List.mem_filter.mpr ⟨hcm, hk⟩)) hqn
        · simpa using hk
      · exact Or.inl ⟨hqo, hq1⟩
  · rw [hr2, applyStage_fst]
    simp only [List.length_append, List.length_map]
    have hsplit := filter_length_split st.1 keep
    omega

theorem memContains (l : List String) (a : String) :
    l.contains a = true ↔ a ∈ l := by
  induction l with
  | nil => simp
  | cons x t ih => by_cases h : a = x <;> simp [h, ih]

/-- Filtering a duplicate-free list by membership in a sublist recovers the
sublist. -/
theorem sublist_filter_mem_eq {l1 l2 : List String}
    (hsub : List.Sublist l1 l2) (hnd : l2.Nodup) :
    (l2.filter fun i => l1.contains i) = l1 := by
  induction hsub with
  | slnil => rfl
  | @cons l1 l2 a hs ih =>
    rw [List.nodup_cons] at hnd
    rw [List.filter_cons]
    have hna : l1.contains a = false := by
      rw [Bool.eq_false_iff, ne_eq, memContains]
      intro hmem
      exact hnd.1 (hs.subset hmem)
    simp only [hna, if_false]
    exact ih hnd.2
  | @cons₂ t1 t2 a hs ih =>
    rw [List.nodup_cons] at hnd
    rw [List.filter_cons]
    have hca : (a :: t1).contains a = true := by
      rw [memContains]; exact List.mem_cons_self a t1
    simp only [hca, if_true]
    have hcong : (t2.filter fun i => (a :: t1).contains i) =
        (t2.filter fun i => t1.contains i) := by
      apply List.filter_congr
      intro x hx
      have hxa : ¬ x = a := fun hxe => hnd.1 (hxe ▸ hx)
      simp [List.contains_cons, hxa, beq_eq_false_iff_ne, hxa]
    rw [hcong, ih hnd.2]

/-- The guarded `setdefault` fold of the near-duplicate phase is a plain
append of the ids that did not survive. -/
theorem foldl_setdefault_if_eq (rs : Reasons) (ids kept : List String)
    (L : String) (hfresh : ∀ i ∈ ids, rs.lookup i = none) (hnd : ids.Nodup) :
    ids.foldl (fun r cid => if kept.contains cid then r else setdefault r cid L) rs =
      rs ++ (ids.filter fun i => !kept.contains i).map fun i => (i, L) := by
  induction ids generalizing rs with
  | nil => simp
  | cons i t ih =>
    rw [List.foldl_cons, List.filter_cons]
    by_cases hk : kept.contains i
    · simp only [hk, if_true, Bool.not_true, Bool.false_eq_true, if_false]
      exact ih rs (fun j hj => hfresh j (by simp [hj])) (List.nodup_cons.mp hnd).2
    · have hk' : kept.contains i = false := by simpa using hk
      have hi : rs.lookup i = none := hfresh i (by simp)
      have hset : setdefault rs i L = rs ++ [(i, L)] := by simp [setdefault, hi]
      simp only [hk', Bool.false_eq_true, if_false, Bool.not_false, if_true, hset]
      rw [ih]
      · simp
      · intro j hj
        rw [lookup_append]
        have hj1 : rs.lookup j = none := hfresh j (by simp [hj])
        have hj2 : (j == i) = false := by
          simp only [beq_eq_false_iff_ne, ne_eq]
          rintro rfl
          exact (List.nodup_cons.mp hnd).1 hj
        simp [hj1, List.lookup, hj2]
      · exact (List.nodup_cons.mp hnd).2

theorem zip_filter_map_fst_sublist {α β : Type} (df : List α) (r : List β)
    (p : α × β → Bool) :
    List.Sublist (((df.zip r).filter p).map Prod.fst) df := by
  induction df generalizing r with
  | nil => simp
  | cons c t ih =>
    cases r with
    | nil => simp
    | cons a r2 =>
      rw [List.zip_cons_cons, List.filter_cons]
      by_cases hp : p (c, a)
      · simp only [hp, if_true, List.map_cons]
        exact (ih r2).cons₂ c
      · simp only [hp, Bool.false_eq_true, if_false]
        exact (ih r2).cons c

/-- `_near_dedup_remove_all` returns a subsequence of its input frame. -/
theorem nearDedupRemoveAll_sublist (ratio : String → String → ℚ)
    (df : List Comment) (thr : ℚ) :
    List.Sublist (nearDedupRemoveAll ratio df thr) df := by
  unfold nearDedupRemoveAll
  exact zip_filter_map_fst_sublist _ _ _

/-- The dedup stage preserves the bookkeeping invariant. -/
theorem stInv_dedupStage {orig : List Comment} {st : List Comment × Reasons}
    (hids : (orig.map Comment.id).Nodup) (h : StInv orig st)
    (caps : Caps) (cfg : Config) : StInv orig (dedupStage caps cfg st) := by
  have h1 : StInv orig (applyStage (keepExact st.1) "Duplicate" st) :=
    stInv_applyStage hids h _ _
  unfold dedupStage
  by_cases hgate : caps.rapidfuzzAvailable && cfg.dedup_threshold < 100
  swap
  · simp only [hgate, Bool.false_eq_true, if_false]
    exact h1
  simp only [hgate, if_true]
  obtain ⟨hsub, hnd, hiff, hlen⟩ := h1
  set st1 := applyStage (keepExact st.1) "Duplicate" st with hst1
  set before := st1.1 with hbefore
  set after := nearDedupRemoveAll caps.fuzzRatio before (cfg.dedup_threshold : ℚ) with hafter
  have hdsub : List.Sublist after before := nearDedupRemoveAll_sublist _ _ _
  have hbids : List.Sublist (before.map Comment.id) (orig.map Comment.id) := hsub.map _
  have hndb : (before.map Comment.id).Nodup := hids.sublist hbids
  have haids : List.Sublist (after.map Comment.id) (before.map Comment.id) := hdsub.map _
  have hfresh : ∀ i ∈ before.map Comment.id, st1.2.lookup i = none := by
    intro i hi
    have hnot : ¬ (st1.2.lookup i).isSome = true := by
      rw [hiff]
      rintro ⟨-, hno⟩
      exact hno hi
    exact Option.not_isSome_iff_eq_none.mp hnot
  have hr2 : (before.map Comment.id).foldl
      (fun r cid => if (after.map Comment.id).contains cid then r
        else setdefault r cid "Duplicate") st1.2 =
      st1.2 ++ ((before.map Comment.id).filter
        fun i => !(after.map Comment.id).contains i).map fun i => (i, "Duplicate") :=
    foldl_setdefault_if_eq _ _ _ _ hfresh hndb
  have hremIff : ∀ q, q ∈ (before.map Comment.id).filter
      (fun i => !(after.map Comment.id).contains i) ↔
      (q ∈ before.map Comment.id ∧ q ∉ after.map Comment.id) := by
    intro q
    rw [List.mem_filter]
    constructor
    · rintro ⟨hq1, hq2⟩
      refine ⟨hq1, fun hq3 => ?_⟩
      rw [Bool.not_eq_eq_eq_not, Bool.not_true, Bool.eq_false_iff, ne_eq,
        memContains] at hq2
      exact hq2 hq3
    · rintro ⟨hq1, hq2⟩
      refine ⟨hq1, ?_⟩
      rw [Bool.not_eq_eq_eq_not, Bool.not_true, Bool.eq_false_iff, ne_eq,
        memContains]
      exact hq2
  constructor
  · exact hdsub.trans hsub
  · rw [hr2, List.map_append, List.map_map]
    have hmapfst : List.map (Prod.fst ∘ fun i => (i, "Duplicate"))
        ((before.map Comment.id).filter fun i => !(after.map Comment.id).contains i) =
        ((before.map Comment.id).filter fun i => !(after.map Comment.id).contains i) :=
      List.map_id _
    rw [hmapfst]
    refine (List.nodup_append).mpr ⟨hnd, hndb.sublist (List.filter_sublist _), ?_⟩
    intro q hq hq2
    have hqsome : (st1.2.lookup q).isSome := by
      rw [lookup_isSome_iff_mem_keys]
      exact hq
    have hq3 := (hiff q).mp hqsome
    exact hq3.2 ((hremIff q).mp hq2).1
  · intro q
    rw [hr2, lookup_append, isSome_orElse]
    simp only [Bool.or_eq_true, lookup_pairs_isSome, hiff q, hremIff q]
    constructor
    · rintro (⟨hqo, hqn⟩ | ⟨hq1, hq2⟩)
      · exact ⟨hqo, fun hq => hqn (haids.subset hq)⟩
      · exact ⟨hbids.subset hq1, hq2⟩
    · rintro ⟨hqo, hqn⟩
      by_cases hq1 : q ∈ before.map Comment.id
      · exact Or.inr ⟨hq1, hqn⟩
      · exact Or.inl ⟨hqo, hq1⟩
  · rw [hr2]
    simp only [List.length_append, List.length_map]
    have hmemeq : ((before.map Comment.id).filter
        fun i => (after.map Comment.id).contains i) = after.map Comment.id :=
      sublist_filter_mem_eq haids hndb
    have hsplit := filter_length_split (before.map Comment.id)
      fun i => (after.map Comment.id).contains i
    rw [hmemeq] at hsplit
    simp only [List.length_map] at hsplit
    have hfl : ((before.map Comment.id).filter
        fun i => !(after.map Comment.id).contains i).length =
        before.length - after.length := by omega
    rw [hfl]
    have hle : after.length ≤ before.length := hdsub.length_le
    omega

/-- Folding any stage list preserves the bookkeeping invariant. -/
theorem stInv_stApply {orig : List Comment} {st : List Comment × Reasons}
    (hids : (orig.map Comment.id).Nodup) (h : StInv orig st) (ss : List Stage) :
    StInv orig (stApply ss st) := by
  induction ss generalizing st with
  | nil => exact h
  | cons s rest ih => exact ih (stInv_applyStage hids h s.1 s.2)

theorem map_id_stripRow (df0 : List Comment) :
    (df0.map stripRow).map Comment.id = df0.map Comment.id := by
  rw [List.map_map]
  rfl

/-- Any successful run of the pipeline satisfies the bookkeeping invariant
against the stripped input. -/
theorem stInv_filter {caps : Caps} {cfg : Config} {bl : List String}
    {df0 : List Comment} {ret : List Comment} {rs : Reasons}
    (hids : (df0.map Comment.id).Nodup)
    (hok : filter_low_value caps cfg bl df0 = Except.ok (ret, rs)) :
    StInv (df0.map stripRow) (ret, rs) := by
  rw [filter_eq_stages] at hok
  simp only at hok
  have hids2 : ((df0.map stripRow).map Comment.id).Nodup := by
    rw [map_id_stripRow]; exact hids
  by_cases herr : (cfg.sentiment_filter && caps.vaderAvailable &&
      !((stApply (stageList caps cfg bl)
        (df0.map fun c => { c with text := pyStrip c.text }, [])).1.all
          fun c => (caps.vaderCompound c.text).isSome))
  · rw [if_pos herr] at hok
    cases hok
  · rw [if_neg (by simpa using herr)] at hok
    have hbase : StInv (df0.map stripRow)
        (stApply (sentStageList caps cfg)
          (stApply (stageList caps cfg bl) (df0.map stripRow, []))) :=
      stInv_stApply hids2 (stInv_stApply hids2 (StInv.init _) _) _
    by_cases hd : cfg.dedup
    · rw [if_pos hd] at hok
      have := stInv_dedupStage hids2 hbase caps cfg
      have hret : dedupStage caps cfg (stApply (sentStageList caps cfg)
          (stApply (stageList caps cfg bl) (df0.map stripRow, []))) = (ret, rs) := by
        injection hok
      rw [hret] at this
      exact this
    · rw [if_neg hd] at hok
      have hret : (stApply (sentStageList caps cfg)
          (stApply (stageList caps cfg bl) (df0.map stripRow, []))) = (ret, rs) := by
        injection hok
      rw [hret] at hbase
      exact hbase

/-! ## Claims -/

/-- C1: for every input comment set with unique ids and every configuration,
a normal return `(retained, reasons)` of `filter_low_value` satisfies
`|retained| + |reasons| = |input|`, and the key set of `reasons` is exactly
the set of input ids not retained. -/
theorem C1_totality (caps : Caps) (cfg : Config) (bl : List String)
    (df0 : List Comment) (ret : List Comment) (rs : Reasons)
    (hids : (df0.map Comment.id).Nodup)
    (hok : filter_low_value caps cfg bl df0 = Except.ok (ret, rs)) :
    ret.length + rs.length = df0.length ∧
      ∀ k, (rs.lookup k).isSome ↔
        (k ∈ df0.map Comment.id ∧ k ∉ ret.map Comment.id) := by
  have h := stInv_filter hids hok
  constructor
  · have hl := h.lens
    simpa using hl
  · intro k
    have hk := h.keysIff k
    rwa [map_id_stripRow] at hk

/-- Witness for C1 at a concrete five-comment input: both hypotheses hold
and the totality conclusion follows by applying `C1_totality`. -/
theorem C1_totality_witness :
    (([⟨"c1", "hi", 3⟩, ⟨"c2", "this is a great video thanks", 5⟩,
       ⟨"c3", "this is a great video thanks!!", 2⟩,
       ⟨"c4", "check 1:23 for the best part", 9⟩,
       ⟨"c5", "aaaaaaaaaa", 1⟩] : List Comment).map Comment.id).Nodup ∧
    ([⟨"c4", "check 1:23 for the best part", 9⟩] : List Comment).length +
      ([("c1", "Too Short"), ("c5", "Too Short"), ("c2", "Duplicate"),
        ("c3", "Duplicate")] : Reasons).length =
      ([⟨"c1", "hi", 3⟩, ⟨"c2", "this is a great video thanks", 5⟩,
        ⟨"c3", "this is a great video thanks!!", 2⟩,
        ⟨"c4", "check 1:23 for the best part", 9⟩,
        ⟨"c5", "aaaaaaaaaa", 1⟩] : List Comment).length :=
  ⟨by decide,
   (C1_totality witnessCaps {} []
     [⟨"c1", "hi", 3⟩, ⟨"c2", "this is a great video thanks", 5⟩,
      ⟨"c3", "this is a great video thanks!!", 2⟩,
      ⟨"c4", "check 1:23 for the best part", 9⟩, ⟨"c5", "aaaaaaaaaa", 1⟩]
     [⟨"c4", "check 1:23 for the best part", 9⟩]
     [("c1", "Too Short"), ("c5", "Too Short"), ("c2", "Duplicate"),
      ("c3", "Duplicate")]
     (by decide) (by rfl)).1⟩

/-! ## Shape of the retained set -/

theorem dedupStage_fst_sublist (caps : Caps) (cfg : Config)
    (st : List Comment × Reasons) :
    List.Sublist (dedupStage caps cfg st).1 st.1 := by
  unfold dedupStage
  by_cases hgate : caps.rapidfuzzAvailable && cfg.dedup_threshold < 100
  · simp only [hgate, if_true]
    exact ((nearDedupRemoveAll_sublist _ _ _).trans
      (by rw [applyStage_fst]; exact List.filter_sublist _))
  · simp only [hgate, Bool.false_eq_true, if_false, applyStage_fst]
    exact List.filter_sublist _

/-- A successful run retains a subsequence of the pointwise-filtered stripped
input; with the dedup gate off the retained set is exactly that filter. -/
theorem ret_shape {caps : Caps} {cfg : Config} {bl : List String}
    {df0 : List Comment} {ret : List Comment} {rs : Reasons}
    (hok : filter_low_value caps cfg bl df0 = Except.ok (ret, rs)) :
    List.Sublist ret
      ((df0.map stripRow).filter (passesAll (stageListFull caps cfg bl))) ∧
    (cfg.dedup = false →
      ret = (df0.map stripRow).filter (passesAll (stageListFull caps cfg bl))) := by
  rw [filter_eq_stages] at hok
  simp only at hok
  by_cases herr : (cfg.sentiment_filter && caps.vaderAvailable &&
      !((stApply (stageList caps cfg bl)
        (df0.map fun c => { c with text := pyStrip c.text }, [])).1.all
          fun c => (caps.vaderCompound c.text).isSome))
  · rw [if_pos herr] at hok
    cases hok
  · rw [if_neg (by simpa using herr)] at hok
    have hst2 : stApply (sentStageList caps cfg)
        (stApply (stageList caps cfg bl) (df0.map stripRow, [])) =
        stApply (stageListFull caps cfg bl) (df0.map stripRow, []) := by
      rw [stageListFull, stApply_append]
    have hfst : (stApply (stageListFull caps cfg bl) (df0.map stripRow, [])).1 =
        (df0.map stripRow).filter (passesAll (stageListFull caps cfg bl)) :=
      stApply_fst _ _
    by_cases hd : cfg.dedup
    · rw [if_pos hd] at hok
      have hpair : dedupStage caps cfg (stApply (sentStageList caps cfg)
          (stApply (stageList caps cfg bl) (df0.map stripRow, []))) = (ret, rs) := by
        injection hok
      constructor
      · have hsubl := dedupStage_fst_sublist caps cfg
          (stApply (sentStageList caps cfg)
            (stApply (stageList caps cfg bl) (df0.map stripRow, [])))
        rw [hpair, hst2, hfst] at hsubl
        exact hsubl
      · intro hfalse
        rw [hd] at hfalse
        cases hfalse
    · rw [if_neg hd] at hok
      have hpair : stApply (sentStageList caps cfg)
          (stApply (stageList caps cfg bl) (df0.map stripRow, [])) = (ret, rs) := by
        injection hok
      rw [hst2] at hpair
      have hret : ret = (df0.map stripRow).filter (passesAll (stageListFull caps cfg bl)) := by
        rw [← hfst, hpair]
      exact ⟨hret ▸ List.Sublist.refl _, fun _ => hret⟩

/-- C5 (amended): every retained comment is the entry-stripped image of the
input comment with the same id; `id` and `like_count` are unchanged and the
text is changed exactly by the one whitespace trim at pipeline entry. -/
theorem C5_frame_amended (caps : Caps) (cfg : Config) (bl : List String)
    (df0 : List Comment) (ret : List Comment) (rs : Reasons)
    (hok : filter_low_value caps cfg bl df0 = Except.ok (ret, rs)) :
    ∀ c2 ∈ ret, ∃ c ∈ df0, c2.id = c.id ∧ c2.like_count = c.like_count ∧
      c2.text = pyStrip c.text := by
  intro c2 hc2
  have hmem : c2 ∈ (df0.map stripRow).filter (passesAll (stageListFull caps cfg bl)) :=
    (ret_shape hok).1.subset hc2
  have hmem2 : c2 ∈ df0.map stripRow := (List.filter_sublist _).subset hmem
  rw [List.mem_map] at hmem2
  obtain ⟨c, hc, heq⟩ := hmem2
  exact ⟨c, hc, by rw [← heq]; rfl, by rw [← heq]; rfl, by rw [← heq]; rfl⟩

/-- Counterexample to C5 as stated: a retained comment whose original text
carries surrounding whitespace comes out with the trimmed text, which is not
byte-identical to the input text. -/
theorem C5_frame_counterexample :
    filter_low_value witnessCaps {} []
      [⟨"a", " this is a great video thanks ", 7⟩] =
      Except.ok ([⟨"a", "this is a great video thanks", 7⟩], []) ∧
    "this is a great video thanks" ≠ " this is a great video thanks " :=
  ⟨by rfl, by decide⟩

/-- Witness for the amended C5 at a concrete input. -/
theorem C5_frame_amended_witness :
    ∃ c ∈ ([⟨"a", " this is a great video thanks ", 7⟩] : List Comment),
      (⟨"a", "this is a great video thanks", 7⟩ : Comment).id = c.id ∧
      (⟨"a", "this is a great video thanks", 7⟩ : Comment).like_count =
        c.like_count ∧
      (⟨"a", "this is a great video thanks", 7⟩ : Comment).text =
        pyStrip c.text :=
  C5_frame_amended witnessCaps {} []
    [⟨"a", " this is a great video thanks ", 7⟩]
    [⟨"a", "this is a great video thanks", 7⟩] [] (by rfl)
    ⟨"a", "this is a great video thanks", 7⟩ (List.mem_cons_self _ _)

/-! ## C3: monotonicity of stages -/

theorem if_single_sublist {g1 g2 : Bool} (h : g1 = true → g2 = true) (s : Stage) :
    List.Sublist (if g1 then [s] else []) (if g2 then [s] else []) := by
  cases g1 with
  | false =>
    simp only [Bool.false_eq_true, if_false]
    exact List.nil_sublist _
  | true =>
    rw [h rfl]

/-- Disabling gates (thresholds fixed) yields a stage sub-sequence. -/
theorem stageListFull_sublist (caps : Caps) (bl : List String)
    {c1 c2 : Config} (h : gatesLE c1 c2) :
    List.Sublist (stageListFull caps c1 bl) (stageListFull caps c2 bl) := by
  obtain ⟨h1, h2, h3, h4, h5, h6, h7, h8, h9, h10, h11, t1, t2, t3, t4, t5⟩ := h
  have e1 : keepMinChars c1 = keepMinChars c2 := by
    funext c
    rw [keepMinChars, keepMinChars, t1]
  have e2 : keepMinWords c1 = keepMinWords c2 := by
    funext c
    rw [keepMinWords, keepMinWords, t2]
  have e3 : keepEnglish caps c1 = keepEnglish caps c2 := by
    funext c
    rw [keepEnglish, keepEnglish, isEnglish, isEnglish, t3]
  have e4 : keepSentiment caps c1 = keepSentiment caps c2 := by
    funext c
    rw [keepSentiment, keepSentiment, t4]
  have h4b : (c1.blacklist_match && !bl.isEmpty) = true →
      (c2.blacklist_match && !bl.isEmpty) = true := by
    intro hb
    rw [Bool.and_eq_true] at hb ⊢
    exact ⟨h4 hb.1, hb.2⟩
  have h9b : (c1.english_only && caps.linguaAvailable) = true →
      (c2.english_only && caps.linguaAvailable) = true := by
    intro hb
    rw [Bool.and_eq_true] at hb ⊢
    exact ⟨h9 hb.1, hb.2⟩
  have h10b : (c1.sentiment_filter && caps.vaderAvailable) = true →
      (c2.sentiment_filter && caps.vaderAvailable) = true := by
    intro hb
    rw [Bool.and_eq_true] at hb ⊢
    exact ⟨h10 hb.1, hb.2⟩
  unfold stageListFull stageList sentStageList
  rw [e1, e2, e3, e4]
  exact List.Sublist.append (List.Sublist.append (List.Sublist.append
    (List.Sublist.append (List.Sublist.append (List.Sublist.append
      (List.Sublist.append (List.Sublist.append (List.Sublist.append
        (if_single_sublist h1 _) (if_single_sublist h2 _))
        (if_single_sublist h3 _))
        (if_single_sublist h4b _))
        (if_single_sublist h5 _))
        (if_single_sublist h6 _))
        (if_single_sublist h7 _))
        (if_single_sublist h8 _))
        (if_single_sublist h9b _))
    (if_single_sublist h10b _)

/-- C3 (amended): disabling any subset of the boolean stage gates with all
thresholds held fixed can only grow the retained set, provided the weaker
configuration has the dedup gate disabled; with dedup enabled in both runs
the remove-all duplicate policy can shrink the retained set (see the
counterexample). -/
theorem C3_monotonicity_amended (caps : Caps) (bl : List String)
    (df0 : List Comment) (cfg cfg2 : Config)
    (ret rs ret2 rs2) (hle : gatesLE cfg2 cfg) (hd : cfg2.dedup = false)
    (hok : filter_low_value caps cfg bl df0 = Except.ok (ret, rs))
    (hok2 : filter_low_value caps cfg2 bl df0 = Except.ok (ret2, rs2)) :
    ret.length ≤ ret2.length := by
  have h1 := (ret_shape hok).1
  have h2 := (ret_shape hok2).2 hd
  have hmono : List.Sublist
      ((df0.map stripRow).filter (passesAll (stageListFull caps cfg bl)))
      ((df0.map stripRow).filter (passesAll (stageListFull caps cfg2 bl))) :=
    List.monotone_filter_right _
      fun c hc => passesAll_sublist (stageListFull_sublist caps bl hle) c hc
  rw [h2]
  exact le_trans h1.length_le hmono.length_le

/-- Counterexample to C3 as stated: with all gates on, the language stage
drops the odd-cased copy and the other survives dedup alone; disabling the
language gate lets both copies reach the exact-duplicate phase, which removes
them all, strictly shrinking the retained set. -/
theorem C3_monotonicity_counterexample :
    ∃ ret rs ret2 rs2,
      filter_low_value c3Caps {} [] c3df = Except.ok (ret, rs) ∧
      filter_low_value c3Caps { english_only := false } [] c3df =
        Except.ok (ret2, rs2) ∧
      ret2.length < ret.length :=
  ⟨[⟨"a", "this is a great video thanks", 0⟩], [("b", "Non-English")],
   [], [("a", "Duplicate"), ("b", "Duplicate")],
   by rfl, by rfl, by decide⟩

/-- Witness for the amended C3 at a concrete input. -/
theorem C3_monotonicity_amended_witness :
    gatesLE { english_only := false, dedup := false } ({} : Config) ∧
    (1 : Nat) ≤ 2 :=
  ⟨by decide,
   by
    have h := C3_monotonicity_amended c3Caps [] c3df {}
      { english_only := false, dedup := false }
      [⟨"a", "this is a great video thanks", 0⟩] [("b", "Non-English")]
      c3df [] (by decide) (by decide) (by rfl) (by rfl)
    exact h⟩

/-! ## Tracing a recorded reason back to its stage -/

theorem firstFail_none_iff (ss : List Stage) (c : Comment) :
    firstFail ss c = none ↔ passesAll ss c = true := by
  induction ss with
  | nil => simp [firstFail, passesAll]
  | cons s rest ih =>
    by_cases hs : s.1 c
    · simp [firstFail, hs, passesAll, ih, List.all_cons]
    · simp [firstFail, hs, passesAll, List.all_cons, Bool.eq_false_iff.mpr hs]

theorem firstFail_some_mem {ss : List Stage} {c : Comment} {L : String}
    (h : firstFail ss c = some L) :
    ∃ s ∈ ss, s.2 = L ∧ s.1 c = false := by
  induction ss with
  | nil => cases h
  | cons s rest ih =>
    by_cases hs : s.1 c
    · rw [firstFail, if_pos hs] at h
      obtain ⟨s2, hs2, he⟩ := ih h
      exact ⟨s2, List.mem_cons_of_mem _ hs2, he⟩
    · rw [firstFail, if_neg hs] at h
      exact ⟨s, List.mem_cons_self _ _, Option.some_inj.mp h,
        Bool.eq_false_iff.mpr hs⟩

theorem lookup_pairs_eq {ids : List String} {L q : String} (h : q ∈ ids) :
    ((ids.map fun i => (i, L)).lookup q) = some L := by
  induction ids with
  | nil => cases h
  | cons i t ih =>
    rcases List.mem_cons.mp h with rfl | hq
    · simp [List.lookup]
    · by_cases hqi : q == i
      · simp [List.lookup, hqi]
      · have : (q == i) = false := by simpa using hqi
        simp [List.lookup, this, ih hq]

theorem lookup_pairs_some {ids : List String} {L q M : String}
    (h : ((ids.map fun i => (i, L)).lookup q) = some M) : q ∈ ids ∧ M = L := by
  induction ids with
  | nil => cases h
  | cons i t ih =>
    by_cases hqi : q == i
    · rw [List.map_cons] at h
      rw [List.lookup, hqi] at h
      exact ⟨by simp [beq_iff_eq.mp hqi], (Option.some_inj.mp h).symm⟩
    · have hf : (q == i) = false := by simpa using hqi
      rw [List.map_cons] at h
      rw [List.lookup, hf] at h
      obtain ⟨hm, hML⟩ := ih h
      exact ⟨List.mem_cons_of_mem _ hm, hML⟩

/-- The reason list written by one `applyStage` under the invariant. -/
theorem applyStage_snd_eq {orig : List Comment} {st : List Comment × Reasons}
    (hids : (orig.map Comment.id).Nodup) (h : StInv orig st)
    (keep : Comment → Bool) (L : String) :
    (applyStage keep L st).2 =
      st.2 ++ ((st.1.filter fun c => !keep c).map Comment.id).map fun i => (i, L) := by
  obtain ⟨hsub, hnd, hiff, hlen⟩ := h
  have hsubids : List.Sublist (st.1.map Comment.id) (orig.map Comment.id) :=
    hsub.map _
  have hnodup1 : (st.1.map Comment.id).Nodup := hids.sublist hsubids
  have hremsub : List.Sublist ((st.1.filter fun c => !keep c).map Comment.id)
      (st.1.map Comment.id) := (List.filter_sublist _).map _
  have hremnd : ((st.1.filter fun c => !keep c).map Comment.id).Nodup :=
    hnodup1.sublist hremsub
  have hfresh : ∀ i ∈ (st.1.filter fun c => !keep c).map Comment.id,
      st.2.lookup i = none := by
    intro i hi
    have himem : i ∈ st.1.map Comment.id := hremsub.subset hi
    have hnot : ¬ (st.2.lookup i).isSome = true := by
      rw [hiff]
      rintro ⟨-, hno⟩
      exact hno himem
    exact Option.not_isSome_iff_eq_none.mp hnot
  exact foldl_setdefault_eq _ _ _ hfresh hremnd

/-- Any reason recorded by a run of pointwise stages is the label of the
first stage that rejected the comment. -/
theorem stApply_lookup_some {orig : List Comment} {ss : List Stage}
    {st : List Comment × Reasons} {k L : String}
    (hids : (orig.map Comment.id).Nodup) (h : StInv orig st)
    (hlk : ((stApply ss st).2.lookup k) = some L) :
    st.2.lookup k = some L ∨
      ∃ c ∈ st.1, c.id = k ∧ firstFail ss c = some L := by
  induction ss generalizing st with
  | nil => exact Or.inl hlk
  | cons s rest ih =>
    have hstep : StInv orig (applyStage s.1 s.2 st) := stInv_applyStage hids h s.1 s.2
    have hlk2 : ((stApply rest (applyStage s.1 s.2 st)).2.lookup k) = some L := hlk
    rcases ih hstep hlk2 with hbase | ⟨c, hc, hck, hcf⟩
    · rw [applyStage_snd_eq hids h s.1 s.2, lookup_append] at hbase
      cases hlook : st.2.lookup k with
      | some v =>
        rw [hlook] at hbase
        exact Or.inl hbase
      | none =>
        rw [hlook] at hbase
        have hbase2 : (((st.1.filter fun c => !s.1 c).map Comment.id).map
            fun i => (i, s.2)).lookup k = some L := hbase
        obtain ⟨hmem, hML⟩ := lookup_pairs_some hbase2
        rw [List.mem_map] at hmem
        obtain ⟨c, hcf, hcid⟩ := hmem
        rw [List.mem_filter] at hcf
        refine Or.inr ⟨c, hcf.1, hcid, ?_⟩
        rw [firstFail, if_neg (by simpa using hcf.2), hML]
    · rw [applyStage_fst, List.mem_filter] at hc
      refine Or.inr ⟨c, hc.1, hck, ?_⟩
      rw [firstFail, if_pos hc.2]
      exact hcf

/-- Any reason recorded by the dedup stage is "Duplicate", on a comment of
the incoming working set. -/
theorem dedupStage_lookup_some {orig : List Comment}
    {st : List Comment × Reasons} {k L : String} {caps : Caps} {cfg : Config}
    (hids : (orig.map Comment.id).Nodup) (h : StInv orig st)
    (hlk : ((dedupStage caps cfg st).2.lookup k) = some L) :
    st.2.lookup k = some L ∨ (L = "Duplicate" ∧ ∃ c ∈ st.1, c.id = k) := by
  have h1 : StInv orig (applyStage (keepExact st.1) "Duplicate" st) :=
    stInv_applyStage hids h _ _
  have hexact : ∀ {M : String},
      ((applyStage (keepExact st.1) "Duplicate" st).2.lookup k) = some M →
      st.2.lookup k = some M ∨ (M = "Duplicate" ∧ ∃ c ∈ st.1, c.id = k) := by
    intro M hM
    rw [applyStage_snd_eq hids h _ _, lookup_append] at hM
    cases hlook : st.2.lookup k with
    | some v =>
      rw [hlook] at hM
      exact Or.inl hM
    | none =>
      rw [hlook] at hM
      have hM2 : (((st.1.filter fun c => !keepExact st.1 c).map Comment.id).map
          fun i => (i, "Duplicate")).lookup k = some M := hM
      obtain ⟨hmem, hML⟩ := lookup_pairs_some hM2
      rw [List.mem_map] at hmem
      obtain ⟨c, hcf, hcid⟩ := hmem
      rw [List.mem_filter] at hcf
      exact Or.inr ⟨hML, c, hcf.1, hcid⟩
  unfold dedupStage at hlk
  by_cases hgate : caps.rapidfuzzAvailable && cfg.dedup_threshold < 100
  · simp only [hgate, if_true] at hlk
    obtain ⟨hsub1, hnd1, hiff1, hlen1⟩ := h1
    set st1 := applyStage (keepExact st.1) "Duplicate" st with hst1
    have hbids : List.Sublist (st1.1.map Comment.id) (orig.map Comment.id) :=
      hsub1.map _
    have hndb : (st1.1.map Comment.id).Nodup := hids.sublist hbids
    have hfresh : ∀ i ∈ st1.1.map Comment.id, st1.2.lookup i = none := by
      intro i hi
      have hnot : ¬ (st1.2.lookup i).isSome = true := by
        rw [hiff1]
        rintro ⟨-, hno⟩
        exact hno hi
      exact Option.not_isSome_iff_eq_none.mp hnot
    rw [foldl_setdefault_if_eq _ _ _ _ hfresh hndb, lookup_append] at hlk
    cases hlook : st1.2.lookup k with
    | some v =>
      rw [hlook] at hlk
      have hlk3 : some v = some L := hlk
      exact hexact (by rw [hlook, hlk3])
    | none =>
      rw [hlook] at hlk
      have hlk3 : (((st1.1.map Comment.id).filter
          fun i => !((nearDedupRemoveAll caps.fuzzRatio st1.1
            (cfg.dedup_threshold : Rat)).map Comment.id).contains i).map
          fun i => (i, "Duplicate")).lookup k = some L := hlk
      obtain ⟨hmem, hML⟩ := lookup_pairs_some hlk3
      have hmem2 : k ∈ st1.1.map Comment.id :=
        (List.filter_sublist _).subset hmem
      rw [List.mem_map] at hmem2
      obtain ⟨c, hcmem, hcid⟩ := hmem2
      have hcmem2 : c ∈ st.1 := by
        have : List.Sublist st1.1 st.1 := by
          rw [hst1, applyStage_fst]
          exact List.filter_sublist _
        exact this.subset hcmem
      exact Or.inr ⟨hML, c, hcmem2, hcid⟩
  · simp only [hgate, Bool.false_eq_true, if_false] at hlk
    exact hexact hlk

theorem mem_if_single {g : Bool} {x s : Stage} (h : s ∈ (if g then [x] else [])) :
    s = x := by
  cases g
  · simp at h
  · simpa using h

/-- Enumeration of the stages of the full stage list. -/
theorem mem_stageListFull {caps : Caps} {cfg : Config} {bl : List String}
    {s : Stage} (h : s ∈ stageListFull caps cfg bl) :
    s = (keepMinChars cfg, "Too Short") ∨ s = (keepMinAlpha, "No Alpha") ∨
    s = (keepMinWords cfg, "Too Few Words") ∨
    s = (keepBlacklist bl, "Blacklisted") ∨ s = (keepEmoji, "Emoji Only") ∨
    s = (keepUrl, "URL Only") ∨ s = (keepTimestamp, "Timestamp") ∨
    s = (keepRepeat, "Repeated Chars") ∨
    s = (keepEnglish caps cfg, "Non-English") ∨
    s = (keepSentiment caps cfg, "Negative Sentiment") := by
  unfold stageListFull stageList sentStageList at h
  simp only [List.mem_append] at h
  rcases h with ((((((((h | h) | h) | h) | h) | h) | h) | h) | h) | h
  · exact Or.inl (mem_if_single h)
  · exact Or.inr (Or.inl (mem_if_single h))
  · exact Or.inr (Or.inr (Or.inl (mem_if_single h)))
  · exact Or.inr (Or.inr (Or.inr (Or.inl (mem_if_single h))))
  · exact Or.inr (Or.inr (Or.inr (Or.inr (Or.inl (mem_if_single h)))))
  · exact Or.inr (Or.inr (Or.inr (Or.inr (Or.inr (Or.inl (mem_if_single h))))))
  · exact Or.inr (Or.inr (Or.inr (Or.inr (Or.inr (Or.inr (Or.inl
      (mem_if_single h)))))))
  · exact Or.inr (Or.inr (Or.inr (Or.inr (Or.inr (Or.inr (Or.inr (Or.inl
      (mem_if_single h))))))))
  · exact Or.inr (Or.inr (Or.inr (Or.inr (Or.inr (Or.inr (Or.inr (Or.inr
      (Or.inl (mem_if_single h)))))))))
  · exact Or.inr (Or.inr (Or.inr (Or.inr (Or.inr (Or.inr (Or.inr (Or.inr
      (Or.inr (mem_if_single h)))))))))

/-- Every reason of a successful run traces back to the first rejecting
stage, or to the dedup stage when the comment passes every pointwise stage. -/
theorem reason_trace {caps : Caps} {cfg : Config} {bl : List String}
    {df0 ret : List Comment} {rs : Reasons} {k L : String}
    (hids : (df0.map Comment.id).Nodup)
    (hok : filter_low_value caps cfg bl df0 = Except.ok (ret, rs))
    (hlk : rs.lookup k = some L) :
    ∃ c ∈ df0.map stripRow, c.id = k ∧
      (firstFail (stageListFull caps cfg bl) c = some L ∨
       (L = "Duplicate" ∧ cfg.dedup = true ∧
        firstFail (stageListFull caps cfg bl) c = none)) := by
  rw [filter_eq_stages] at hok
  simp only at hok
  have hids2 : ((df0.map stripRow).map Comment.id).Nodup := by
    rw [map_id_stripRow]; exact hids
  by_cases herr : (cfg.sentiment_filter && caps.vaderAvailable &&
      !((stApply (stageList caps cfg bl)
        (df0.map fun c => { c with text := pyStrip c.text }, [])).1.all
          fun c => (caps.vaderCompound c.text).isSome))
  · rw [if_pos herr] at hok
    cases hok
  · rw [if_neg (by simpa using herr)] at hok
    have hst2 : stApply (sentStageList caps cfg)
        (stApply (stageList caps cfg bl) (df0.map stripRow, [])) =
        stApply (stageListFull caps cfg bl) (df0.map stripRow, []) := by
      rw [stageListFull, stApply_append]
    have hinit : StInv (df0.map stripRow) (df0.map stripRow, []) := StInv.init _
    have hmid : StInv (df0.map stripRow)
        (stApply (stageListFull caps cfg bl) (df0.map stripRow, [])) :=
      stInv_stApply hids2 hinit _
    have htrace : ∀ {M : String},
        ((stApply (stageListFull caps cfg bl) (df0.map stripRow, [])).2.lookup k) =
          some M →
        ∃ c ∈ df0.map stripRow, c.id = k ∧
          firstFail (stageListFull caps cfg bl) c = some M := by
      intro M hM
      rcases stApply_lookup_some hids2 hinit hM with hbase | ⟨c, hc, hck, hcf⟩
      · cases hbase
      · exact ⟨c, hc, hck, hcf⟩
    by_cases hd : cfg.dedup
    · rw [if_pos hd] at hok
      have hpair : dedupStage caps cfg (stApply (sentStageList caps cfg)
          (stApply (stageList caps cfg bl) (df0.map stripRow, []))) = (ret, rs) := by
        injection hok
      rw [hst2] at hpair
      have hlk2 : ((dedupStage caps cfg (stApply (stageListFull caps cfg bl)
          (df0.map stripRow, []))).2.lookup k) = some L := by
        rw [hpair]
        exact hlk
      rcases dedupStage_lookup_some hids2 hmid hlk2 with hb | ⟨hdup, c, hc, hck⟩
      · obtain ⟨c, hc, hck, hcf⟩ := htrace hb
        exact ⟨c, hc, hck, Or.inl hcf⟩
      · have hcpass : passesAll (stageListFull caps cfg bl) c = true := by
          have hc2 : c ∈ (df0.map stripRow).filter
              (passesAll (stageListFull caps cfg bl)) := by
            rw [← stApply_fst _ ((df0.map stripRow, []) : List Comment × Reasons)]
            exact hc
          exact (List.mem_filter.mp hc2).2
        refine ⟨c, ?_, hck, Or.inr ⟨hdup, hd, (firstFail_none_iff _ _).mpr hcpass⟩⟩
        have hc2 : c ∈ (df0.map stripRow).filter
            (passesAll (stageListFull caps cfg bl)) := by
          rw [← stApply_fst _ ((df0.map stripRow, []) : List Comment × Reasons)]
          exact hc
        exact (List.filter_sublist _).subset hc2
    · rw [if_neg hd] at hok
      have hpair : stApply (sentStageList caps cfg)
          (stApply (stageList caps cfg bl) (df0.map stripRow, [])) = (ret, rs) := by
        injection hok
      rw [hst2] at hpair
      have hlk2 : ((stApply (stageListFull caps cfg bl)
          (df0.map stripRow, [])).2.lookup k) = some L := by
        rw [hpair]
        exact hlk
      obtain ⟨c, hc, hck, hcf⟩ := htrace hlk2
      exact ⟨c, hc, hck, Or.inl hcf⟩

/-- C8: reasons never collide (each dropped id has exactly one recorded
reason), and the recorded label is that of the first enabled stage whose
predicate rejected the comment, the dedup stage acting only on comments that
passed every pointwise stage. -/
theorem C8_first_reason (caps : Caps) (cfg : Config) (bl : List String)
    (df0 ret : List Comment) (rs : Reasons)
    (hids : (df0.map Comment.id).Nodup)
    (hok : filter_low_value caps cfg bl df0 = Except.ok (ret, rs)) :
    (rs.map Prod.fst).Nodup ∧
    ∀ k L, rs.lookup k = some L →
      ∃ c ∈ df0.map stripRow, c.id = k ∧
        (firstFail (stageListFull caps cfg bl) c = some L ∨
         (L = "Duplicate" ∧ cfg.dedup = true ∧
          firstFail (stageListFull caps cfg bl) c = none)) :=
  ⟨(stInv_filter hids hok).keysNodup,
   fun _ _ hlk => reason_trace hids hok hlk⟩

/-- Witness for C8 at a concrete input. -/
theorem C8_first_reason_witness :
    (([("b", "Non-English")] : Reasons).map Prod.fst).Nodup :=
  (C8_first_reason c3Caps {} [] c3df
    [⟨"a", "this is a great video thanks", 0⟩] [("b", "Non-English")]
    (by decide) (by rfl)).1

/-- C4 (amended): the language-identification stage is fail-open — a comment
is recorded as "Non-English" only when the detector actually returned a
confidence below the configured minimum, never when it raised.  (An exception
of the sentiment stage instead aborts the whole pipeline; see the
counterexample.) -/
theorem C4_failopen_amended (caps : Caps) (cfg : Config) (bl : List String)
    (df0 ret : List Comment) (rs : Reasons)
    (hids : (df0.map Comment.id).Nodup)
    (hok : filter_low_value caps cfg bl df0 = Except.ok (ret, rs)) :
    ∀ k, rs.lookup k = some "Non-English" →
      ∃ c ∈ df0, c.id = k ∧
        ∃ q, caps.langConfidence (pyStrip c.text) = some q ∧
          q < cfg.english_confidence := by
  intro k hlk
  obtain ⟨c, hc, hck, hcase⟩ := reason_trace hids hok hlk
  rcases hcase with hff | ⟨hdup, -, -⟩
  swap
  · exact absurd hdup (by decide)
  obtain ⟨s, hs, hslab, hsfail⟩ := firstFail_some_mem hff
  have hsenum := mem_stageListFull hs
  have hseng : s = (keepEnglish caps cfg, "Non-English") := by
    rcases hsenum with h | h | h | h | h | h | h | h | h | h <;>
      first
        | (exfalso; rw [h] at hslab; simp at hslab; done)
        | exact h
  rw [hseng] at hsfail
  simp only at hsfail
  rw [List.mem_map] at hc
  obtain ⟨c0, hc0, hc0eq⟩ := hc
  refine ⟨c0, hc0, by rw [← hck, ← hc0eq]; rfl, ?_⟩
  have htext : c.text = pyStrip c0.text := by rw [← hc0eq]; rfl
  rw [keepEnglish, isEnglish, htext] at hsfail
  cases hq : caps.langConfidence (pyStrip c0.text) with
  | none =>
    rw [hq] at hsfail
    cases hsfail
  | some q =>
    rw [hq] at hsfail
    simp only [decide_eq_false_iff_not, not_le] at hsfail
    exact ⟨q, rfl, hsfail⟩

/-- Counterexample to C4 as stated: the sentiment stage has no per-comment
exception handler, so a raising sentiment model aborts the whole call — the
affected comment is not kept and the pipeline does not complete. -/
theorem C4_failopen_counterexample :
    filter_low_value c4Caps {} []
      [⟨"a", "this video made me think a lot", 0⟩] = Except.error () := by
  rfl

/-- Witness for the amended C4 at a concrete input. -/
theorem C4_failopen_amended_witness :
    ∃ c ∈ c3df, c.id = "b" ∧
      ∃ q, c3Caps.langConfidence (pyStrip c.text) = some q ∧
        q < ({} : Config).english_confidence :=
  C4_failopen_amended c3Caps {} [] c3df
    [⟨"a", "this is a great video thanks", 0⟩] [("b", "Non-English")]
    (by decide) (by rfl) "b" (by rfl)

/-- The dedup stage with the near-duplicate phase enabled, written out. -/
theorem dedupStage_eq_on (caps : Caps) (cfg : Config)
    (st : List Comment × Reasons)
    (hgate : (caps.rapidfuzzAvailable && cfg.dedup_threshold < 100) = true) :
    dedupStage caps cfg st =
      (nearDedupRemoveAll caps.fuzzRatio
        (applyStage (keepExact st.1) "Duplicate" st).1 (cfg.dedup_threshold : ℚ),
       (((applyStage (keepExact st.1) "Duplicate" st).1.map Comment.id).foldl
         (fun r cid =>
           if ((nearDedupRemoveAll caps.fuzzRatio
               (applyStage (keepExact st.1) "Duplicate" st).1
               (cfg.dedup_threshold : ℚ)).map Comment.id).contains cid then r
           else setdefault r cid "Duplicate")
         (applyStage (keepExact st.1) "Duplicate" st).2)) := by
  unfold dedupStage
  simp only [hgate, if_true]

/-- The dedup stage with the near-duplicate phase disabled. -/
theorem dedupStage_eq_off (caps : Caps) (cfg : Config)
    (st : List Comment × Reasons)
    (hgate : (caps.rapidfuzzAvailable && cfg.dedup_threshold < 100) = false) :
    dedupStage caps cfg st = applyStage (keepExact st.1) "Duplicate" st := by
  unfold dedupStage
  simp only [hgate, Bool.false_eq_true, if_false]

theorem two_mem_le_length {α : Type} {l : List α} {a b : α}
    (ha : a ∈ l) (hb : b ∈ l) (hab : a ≠ b) : 2 ≤ l.length := by
  induction l with
  | nil => cases ha
  | cons x t ih =>
    rcases List.mem_cons.mp ha with rfl | ha2
    · rcases List.mem_cons.mp hb with rfl | hb2
      · exact absurd rfl hab
      · have : 0 < t.length := List.length_pos_of_mem hb2
        simp only [List.length_cons]
        omega
    · have : 0 < t.length := List.length_pos_of_mem ha2
      simp only [List.length_cons]
      omega

/-- C2 (amended): whenever the dedup gate is enabled the exact-duplicate
phase removes every member of a group of two or more comments sharing the
same normalised text, with reason "Duplicate", for every value of
`dedup_threshold` — including `dedup_threshold = 100` (the threshold gates
only the near-duplicate phase; see the counterexample). -/
theorem C2_exact_dedup_amended (caps : Caps) (cfg : Config) (bl : List String)
    (df0 ret : List Comment) (rs : Reasons) (c c2 : Comment)
    (hids : (df0.map Comment.id).Nodup)
    (hok : filter_low_value caps cfg bl df0 = Except.ok (ret, rs))
    (hd : cfg.dedup = true)
    (hc : c ∈ df0.map stripRow) (hc2 : c2 ∈ df0.map stripRow)
    (hp : passesAll (stageListFull caps cfg bl) c = true)
    (hp2 : passesAll (stageListFull caps cfg bl) c2 = true)
    (hne : c.id ≠ c2.id) (hnorm : exactDupNorm c = exactDupNorm c2) :
    c.id ∉ ret.map Comment.id ∧ rs.lookup c.id = some "Duplicate" := by
  rw [filter_eq_stages] at hok
  simp only at hok
  have hids2 : ((df0.map stripRow).map Comment.id).Nodup := by
    rw [map_id_stripRow]; exact hids
  by_cases herr : (cfg.sentiment_filter && caps.vaderAvailable &&
      !((stApply (stageList caps cfg bl)
        (df0.map fun c => { c with text := pyStrip c.text }, [])).1.all
          fun c => (caps.vaderCompound c.text).isSome))
  · rw [if_pos herr] at hok
    cases hok
  rw [if_neg (by simpa using herr)] at hok
  rw [hd] at hok
  simp only [if_true] at hok
  have hst2 : stApply (sentStageList caps cfg)
      (stApply (stageList caps cfg bl) (df0.map stripRow, [])) =
      stApply (stageListFull caps cfg bl) (df0.map stripRow, []) := by
    rw [stageListFull, stApply_append]
  have hpair : dedupStage caps cfg
      (stApply (stageListFull caps cfg bl) (df0.map stripRow, [])) = (ret, rs) := by
    rw [← hst2]
    injection hok
  set mid := stApply (stageListFull caps cfg bl) (df0.map stripRow, []) with hmid0
  have hmidInv : StInv (df0.map stripRow) mid :=
    stInv_stApply hids2 (StInv.init _) _
  have hmid1 : mid.1 = (df0.map stripRow).filter (passesAll (stageListFull caps cfg bl)) :=
    stApply_fst _ _
  have hcmem : c ∈ mid.1 := by
    rw [hmid1]
    exact List.mem_filter.mpr ⟨hc, hp⟩
  have hc2mem : c2 ∈ mid.1 := by
    rw [hmid1]
    exact List.mem_filter.mpr ⟨hc2, hp2⟩
  have hcne : c ≠ c2 := fun he => hne (by rw [he])
  have hkeep : keepExact mid.1 c = false := by
    have h2le : 2 ≤ (mid.1.filter fun x => exactDupNorm x == exactDupNorm c).length := by
      refine two_mem_le_length (a := c) (b := c2) ?_ ?_ hcne
      · exact List.mem_filter.mpr ⟨hcmem, beq_self_eq_true _⟩
      · exact List.mem_filter.mpr ⟨hc2mem, by rw [hnorm]; exact beq_self_eq_true _⟩
    unfold keepExact
    exact decide_eq_false (by omega)
  have hmidsubids : List.Sublist (mid.1.map Comment.id)
      ((df0.map stripRow).map Comment.id) := hmidInv.sub.map _
  have hmidnd : (mid.1.map Comment.id).Nodup := hids2.sublist hmidsubids
  have hsnd := applyStage_snd_eq hids2 hmidInv (keepExact mid.1) "Duplicate"
  have hcidrem : c.id ∈ (mid.1.filter fun x => !keepExact mid.1 x).map Comment.id :=
    List.mem_map_of_mem _ (List.mem_filter.mpr ⟨hcmem, by rw [hkeep]; rfl⟩)
  have hfreshc : mid.2.lookup c.id = none := by
    have hnot : ¬ (mid.2.lookup c.id).isSome = true := by
      rw [hmidInv.keysIff]
      rintro ⟨-, hno⟩
      exact hno (List.mem_map_of_mem _ hcmem)
    exact Option.not_isSome_iff_eq_none.mp hnot
  set st1 := applyStage (keepExact mid.1) "Duplicate" mid with hst1def
  have hlk1 : st1.2.lookup c.id = some "Duplicate" := by
    rw [hst1def, hsnd, lookup_append, hfreshc]
    exact lookup_pairs_eq hcidrem
  have hnotin1 : c.id ∉ st1.1.map Comment.id := by
    intro hmem
    rw [hst1def, applyStage_fst, List.mem_map] at hmem
    obtain ⟨c3, hc3, hc3id⟩ := hmem
    rw [List.mem_filter] at hc3
    have hce : c3 = c := eq_of_mem_of_id_eq hmidnd hc3.1 hcmem hc3id
    rw [hce, hkeep] at hc3
    cases hc3.2
  have hst1Inv : StInv (df0.map stripRow) st1 :=
    stInv_applyStage hids2 hmidInv _ _
  by_cases hgate : caps.rapidfuzzAvailable && cfg.dedup_threshold < 100
  · rw [dedupStage_eq_on caps cfg mid hgate, Prod.mk.injEq] at hpair
    obtain ⟨hr1, hr2⟩ := hpair
    have hfresh1 : ∀ i ∈ st1.1.map Comment.id, st1.2.lookup i = none := by
      intro i hi
      have hnot : ¬ (st1.2.lookup i).isSome = true := by
        rw [hst1Inv.keysIff]
        rintro ⟨-, hno⟩
        exact hno hi
      exact Option.not_isSome_iff_eq_none.mp hnot
    have hnd1 : (st1.1.map Comment.id).Nodup :=
      hids2.sublist (hst1Inv.sub.map _)
    rw [← hst1def] at hr1 hr2
    rw [← hr2, foldl_setdefault_if_eq _ _ _ _ hfresh1 hnd1, lookup_append, hlk1]
    refine ⟨?_, rfl⟩
    rw [← hr1]
    intro hmem
    have hsubafter : List.Sublist
        ((nearDedupRemoveAll caps.fuzzRatio st1.1 (cfg.dedup_threshold : ℚ)).map
          Comment.id) (st1.1.map Comment.id) :=
      (nearDedupRemoveAll_sublist _ _ _).map _
    exact hnotin1 (hsubafter.subset hmem)
  · rw [dedupStage_eq_off caps cfg mid (by simpa using hgate)] at hpair
    rw [← hst1def] at hpair
    have hret : ret = st1.1 := (congrArg Prod.fst hpair).symm
    have hrs : rs = st1.2 := (congrArg Prod.snd hpair).symm
    rw [hret, hrs]
    exact ⟨hnotin1, hlk1⟩

/-- Counterexample to C2 as stated: with `dedup_threshold = 100` the
exact-duplicate phase still removes both copies of a case-variant pair (the
near-duplicate phase is skipped at threshold 100, so these "Duplicate"
reasons can only come from the exact phase). -/
theorem C2_exact_dedup_counterexample :
    filter_low_value witnessCaps { dedup_threshold := 100 } []
      [⟨"a", "this is a great video thanks", 1⟩,
       ⟨"b", "This is a great video thanks", 2⟩] =
      Except.ok ([], [("a", "Duplicate"), ("b", "Duplicate")]) := by
  rfl

/-- Witness for the amended C2 at a concrete input with threshold 100. -/
theorem C2_exact_dedup_amended_witness :
    ("a" : String) ∉
      (([] : List Comment).map Comment.id) ∧
    (([("a", "Duplicate"), ("b", "Duplicate")] : Reasons).lookup "a") =
      some "Duplicate" :=
  C2_exact_dedup_amended witnessCaps { dedup_threshold := 100 } []
    [⟨"a", "this is a great video thanks", 1⟩,
     ⟨"b", "This is a great video thanks", 2⟩]
    [] [("a", "Duplicate"), ("b", "Duplicate")]
    ⟨"a", "this is a great video thanks", 1⟩
    ⟨"b", "This is a great video thanks", 2⟩
    (by decide) (by rfl) (by rfl) (by decide) (by decide)
    (by decide) (by decide) (by decide) (by decide)

/-! ## C6: configuration sanitisation -/

theorem lookup_filter_recognized (raw : RawSettings) (k : String)
    (hk : recognizedKey k = true) :
    (raw.filter fun kv => recognizedKey kv.1).lookup k = raw.lookup k := by
  induction raw with
  | nil => rfl
  | cons kv t ih =>
    obtain ⟨k1, v1⟩ := kv
    rw [List.filter_cons]
    by_cases hr : recognizedKey k1
    · simp only [hr, if_true]
      by_cases hkk : k == k1
      · simp [List.lookup, hkk]
      · have hf : (k == k1) = false := by simpa using hkk
        simp [List.lookup, hf, ih]
    · have hrf : recognizedKey k1 = false := by simpa using hr
      simp only [hrf, Bool.false_eq_true, if_false]
      have hkk : (k == k1) = false := by
        simp only [beq_eq_false_iff_ne, ne_eq]
        rintro rfl
        exact hr hk
      simp [List.lookup, hkk, ih]

theorem boolSetting_filter (raw : RawSettings) (k : String) (d : Bool)
    (hk : recognizedKey k = true) :
    boolSetting (raw.filter fun kv => recognizedKey kv.1) k d =
      boolSetting raw k d := by
  unfold boolSetting
  rw [lookup_filter_recognized raw k hk]

theorem numSetting_filter (raw : RawSettings) (conv : RawVal → Option ℚ)
    (k : String) (lo hi d : ℚ) (hk : recognizedKey k = true) :
    numSetting (raw.filter fun kv => recognizedKey kv.1) conv k lo hi d =
      numSetting raw conv k lo hi d := by
  unfold numSetting
  rw [lookup_filter_recognized raw k hk]

theorem numSettingInt_filter (raw : RawSettings) (k : String) (lo hi d : Int)
    (hk : recognizedKey k = true) :
    numSettingInt (raw.filter fun kv => recognizedKey kv.1) k lo hi d =
      numSettingInt raw k lo hi d := by
  unfold numSettingInt
  rw [lookup_filter_recognized raw k hk]

theorem numSettingInt_mem (raw : RawSettings) (k : String) (lo hi d : Int)
    (hlohi : lo ≤ hi) (hd1 : lo ≤ d) (hd2 : d ≤ hi) :
    lo ≤ numSettingInt raw k lo hi d ∧ numSettingInt raw k lo hi d ≤ hi := by
  unfold numSettingInt
  cases hl : raw.lookup k with
  | none =>
    simp only [hl]
    exact ⟨hd1, hd2⟩
  | some v =>
    simp only [hl]
    cases hn : rawToInt v with
    | none =>
      simp only [hn]
      exact ⟨hd1, hd2⟩
    | some n =>
      simp only [hn]
      exact ⟨le_max_left _ _, max_le hlohi (min_le_left _ _)⟩

theorem numSetting_mem (raw : RawSettings) (conv : RawVal → Option ℚ)
    (k : String) (lo hi d : ℚ) (hlohi : lo ≤ hi) (hd1 : lo ≤ d) (hd2 : d ≤ hi) :
    lo ≤ numSetting raw conv k lo hi d ∧ numSetting raw conv k lo hi d ≤ hi := by
  unfold numSetting
  cases hl : raw.lookup k with
  | none =>
    simp only [hl]
    exact ⟨hd1, hd2⟩
  | some v =>
    simp only [hl]
    cases hn : conv v with
    | none =>
      simp only [hn]
      exact ⟨hd1, hd2⟩
    | some q =>
      simp only [hn]
      exact ⟨le_max_left _ _, max_le hlohi (min_le_left _ _)⟩

/-- C6: the settings builder of `server.py` clamps every recognised numeric
key into its declared bounds before it reaches `filter_low_value` (the exact
clamped value is `max lo (min hi (converted raw))`), never rejects a raw
configuration, and ignores unrecognised keys entirely. -/
theorem C6_config_clamped (raw : RawSettings) :
    (1 ≤ (buildConfig raw).min_chars_threshold ∧
      (buildConfig raw).min_chars_threshold ≤ 50) ∧
    (1 ≤ (buildConfig raw).min_words_threshold ∧
      (buildConfig raw).min_words_threshold ≤ 10) ∧
    (0 ≤ (buildConfig raw).english_confidence ∧
      (buildConfig raw).english_confidence ≤ 1) ∧
    (-1 ≤ (buildConfig raw).sentiment_threshold ∧
      (buildConfig raw).sentiment_threshold ≤ 0) ∧
    (50 ≤ (buildConfig raw).dedup_threshold ∧
      (buildConfig raw).dedup_threshold ≤ 100) ∧
    (∀ v n, raw.lookup "min_chars_threshold" = some v → rawToInt v = some n →
      (buildConfig raw).min_chars_threshold = (max 1 (min 50 n)).toNat) ∧
    (∀ v n, raw.lookup "min_words_threshold" = some v → rawToInt v = some n →
      (buildConfig raw).min_words_threshold = (max 1 (min 10 n)).toNat) ∧
    (∀ v q, raw.lookup "english_confidence" = some v → rawToFloatQ v = some q →
      (buildConfig raw).english_confidence = clampQ 0 1 q) ∧
    (∀ v q, raw.lookup "sentiment_threshold" = some v → rawToFloatQ v = some q →
      (buildConfig raw).sentiment_threshold = clampQ (-1) 0 q) ∧
    (∀ v n, raw.lookup "dedup_threshold" = some v → rawToInt v = some n →
      (buildConfig raw).dedup_threshold = max 50 (min 100 n)) ∧
    buildConfig (raw.filter fun kv => recognizedKey kv.1) = buildConfig raw := by
  refine ⟨?_, ?_, ?_, ?_, ?_, ?_, ?_, ?_, ?_, ?_, ?_⟩
  · have h := numSettingInt_mem raw "min_chars_threshold" 1 50 20
      (by decide) (by decide) (by decide)
    show 1 ≤ (numSettingInt raw "min_chars_threshold" 1 50 20).toNat ∧
      (numSettingInt raw "min_chars_threshold" 1 50 20).toNat ≤ 50
    omega
  · have h := numSettingInt_mem raw "min_words_threshold" 1 10 3
      (by decide) (by decide) (by decide)
    show 1 ≤ (numSettingInt raw "min_words_threshold" 1 10 3).toNat ∧
      (numSettingInt raw "min_words_threshold" 1 10 3).toNat ≤ 10
    omega
  · exact numSetting_mem raw rawToFloatQ "english_confidence" 0 1 (mkRat 1 2)
      (by decide) (by decide) (by decide)
  · exact numSetting_mem raw rawToFloatQ "sentiment_threshold" (-1) 0 (-(mkRat 4 5))
      (by decide) (by decide) (by decide)
  · exact numSettingInt_mem raw "dedup_threshold" 50 100 85
      (by decide) (by decide) (by decide)
  · intro v n hv hn
    show (numSettingInt raw "min_chars_threshold" 1 50 20).toNat = _
    unfold numSettingInt
    simp only [hv, hn]
  · intro v n hv hn
    show (numSettingInt raw "min_words_threshold" 1 10 3).toNat = _
    unfold numSettingInt
    simp only [hv, hn]
  · intro v q hv hq
    show numSetting raw rawToFloatQ "english_confidence" 0 1 (mkRat 1 2) = _
    unfold numSetting
    simp only [hv, hq]
  · intro v q hv hq
    show numSetting raw rawToFloatQ "sentiment_threshold" (-1) 0 (-(mkRat 4 5)) = _
    unfold numSetting
    simp only [hv, hq]
  · intro v n hv hn
    show numSettingInt raw "dedup_threshold" 50 100 85 = _
    unfold numSettingInt
    simp only [hv, hn]
  · unfold buildConfig
    rw [boolSetting_filter raw "min_chars" true (by decide),
      boolSetting_filter raw "min_alpha" true (by decide),
      boolSetting_filter raw "min_words" true (by decide),
      boolSetting_filter raw "blacklist_match" true (by decide),
      boolSetting_filter raw "emoji_only" true (by decide),
      boolSetting_filter raw "url_only" true (by decide),
      boolSetting_filter raw "timestamp_only" true (by decide),
      boolSetting_filter raw "repeat_char" true (by decide),
      boolSetting_filter raw "english_only" true (by decide),
      boolSetting_filter raw "sentiment_filter" true (by decide),
      boolSetting_filter raw "dedup" true (by decide),
      numSettingInt_filter raw "min_chars_threshold" 1 50 20 (by decide),
      numSettingInt_filter raw "min_words_threshold" 1 10 3 (by decide),
      numSettingInt_filter raw "dedup_threshold" 50 100 85 (by decide),
      numSetting_filter raw rawToFloatQ "english_confidence" 0 1 (mkRat 1 2) (by decide),
      numSetting_filter raw rawToFloatQ "sentiment_threshold" (-1) 0 (-(mkRat 4 5)) (by decide)]

/-- Witness for C6: an out-of-range `dedup_threshold` of 200 is applied as
the clamped value 100, and the junk key is ignored. -/
theorem C6_config_clamped_witness :
    (buildConfig [("dedup_threshold", RawVal.rnum 200), ("bogus", RawVal.rjunk)]).dedup_threshold =
      max 50 (min 100 200) :=
  ((C6_config_clamped
    [("dedup_threshold", RawVal.rnum 200), ("bogus", RawVal.rjunk)]).2.2.2.2.2.2.2.2.2.1)
    (RawVal.rnum 200) 200 (by rfl) (by rfl)

/-! ## C10: case sensitivity of the near-duplicate phase -/

/-- The union loop on a two-row frame: one pair, one comparison of the
original-case texts. -/
theorem nearDedupParent_pair (r : String → String → ℚ) (thr : ℚ)
    (c1 c2 : Comment) :
    nearDedupParent r thr [c1.text, c2.text] =
      if thr ≤ r c1.text c2.text then [1, 1] else [0, 1] := by
  show (if thr ≤ r c1.text c2.text then ufUnion [0, 1] 0 1 else [0, 1]) = _
  by_cases h : thr ≤ r c1.text c2.text
  · rw [if_pos h, if_pos h]
    rfl
  · rw [if_neg h, if_neg h]

/-- `_near_dedup_remove_all` on a two-row frame: both rows are removed when
their original-case similarity reaches the threshold, both kept otherwise. -/
theorem nearDedup_pair (r : String → String → ℚ) (thr : ℚ) (c1 c2 : Comment) :
    nearDedupRemoveAll r [c1, c2] thr =
      if thr ≤ r c1.text c2.text then [] else [c1, c2] := by
  unfold nearDedupRemoveAll
  simp only []
  rw [show ([c1, c2].map Comment.text) = [c1.text, c2.text] from rfl,
    nearDedupParent_pair]
  by_cases h : thr ≤ r c1.text c2.text
  · rw [if_pos h, if_pos h]
    rfl
  · rw [if_neg h, if_neg h]
    rfl

/-- C10: the near-duplicate phase compares the stored original-case texts,
not the lowercased normalisation used by the blacklist and exact-duplicate
checks.  For the concrete pair below — whose lowercasings differ only by one
appended character — any similarity that is below the default threshold on
the original-case texts leaves both comments in the dedup-stage output, while
the same similarity applied to the lowercased texts (at or above the
threshold) would have clustered and removed them both. -/
theorem C10_case_sensitive_dedup (r : String → String → ℚ)
    (h1 : r "HELLO WORLD OK" "hello world okx" < 85)
    (h2 : 85 ≤ r (pyLower "HELLO WORLD OK") (pyLower "hello world okx")) :
    pyLower "hello world okx" = (pyLower "HELLO WORLD OK").push 'x' ∧
    dedupStage (capsFor r) {}
      ([⟨"a", "HELLO WORLD OK", 0⟩, ⟨"b", "hello world okx", 0⟩], []) =
      ([⟨"a", "HELLO WORLD OK", 0⟩, ⟨"b", "hello world okx", 0⟩], []) ∧
    dedupStage (capsFor fun s t => r (pyLower s) (pyLower t)) {}
      ([⟨"a", "HELLO WORLD OK", 0⟩, ⟨"b", "hello world okx", 0⟩], []) =
      ([], [("a", "Duplicate"), ("b", "Duplicate")]) := by
  refine ⟨by decide, ?_, ?_⟩
  · rw [dedupStage_eq_on _ _ _ (by rfl)]
    rw [show applyStage (keepExact ([(⟨"a", "HELLO WORLD OK", 0⟩ : Comment),
        ⟨"b", "hello world okx", 0⟩], ([] : Reasons)).1) "Duplicate"
        ([⟨"a", "HELLO WORLD OK", 0⟩, ⟨"b", "hello world okx", 0⟩], []) =
        ([⟨"a", "HELLO WORLD OK", 0⟩, ⟨"b", "hello world okx", 0⟩], []) from rfl]
    rw [show (([(⟨"a", "HELLO WORLD OK", 0⟩ : Comment),
        ⟨"b", "hello world okx", 0⟩], ([] : Reasons)) :
        List Comment × Reasons).1 =
        [⟨"a", "HELLO WORLD OK", 0⟩, ⟨"b", "hello world okx", 0⟩] from rfl]
    rw [show ((({} : Config).dedup_threshold : ℚ)) = (85 : ℚ) from rfl]
    rw [show (capsFor r).fuzzRatio = r from rfl]
    rw [nearDedup_pair]
    rw [if_neg (not_le.mpr h1)]
    rfl
  · rw [dedupStage_eq_on _ _ _ (by rfl)]
    rw [show applyStage (keepExact ([(⟨"a", "HELLO WORLD OK", 0⟩ : Comment),
        ⟨"b", "hello world okx", 0⟩], ([] : Reasons)).1) "Duplicate"
        ([⟨"a", "HELLO WORLD OK", 0⟩, ⟨"b", "hello world okx", 0⟩], []) =
        ([⟨"a", "HELLO WORLD OK", 0⟩, ⟨"b", "hello world okx", 0⟩], []) from rfl]
    rw [show (([(⟨"a", "HELLO WORLD OK", 0⟩ : Comment),
        ⟨"b", "hello world okx", 0⟩], ([] : Reasons)) :
        List Comment × Reasons).1 =
        [⟨"a", "HELLO WORLD OK", 0⟩, ⟨"b", "hello world okx", 0⟩] from rfl]
    rw [show ((({} : Config).dedup_threshold : ℚ)) = (85 : ℚ) from rfl]
    rw [show (capsFor fun s t => r (pyLower s) (pyLower t)).fuzzRatio =
        fun s t => r (pyLower s) (pyLower t) from rfl]
    rw [nearDedup_pair]
    rw [if_pos h2]
    rfl

/-- Witness for C10: the indel-ratio model of `fuzz.ratio` satisfies both
similarity hypotheses at the concrete pair. -/
theorem C10_case_sensitive_dedup_witness :
    indelRatio "HELLO WORLD OK" "hello world okx" < 85 ∧
    85 ≤ indelRatio (pyLower "HELLO WORLD OK") (pyLower "hello world okx") ∧
    pyLower "hello world okx" = (pyLower "HELLO WORLD OK").push 'x' :=
  ⟨by decide, by decide,
   (C10_case_sensitive_dedup indelRatio (by decide) (by decide)).1⟩

/-! ## Union-find correctness -/

theorem getD_set_ne {p : List Nat} {x m : Nat} (v d : Nat) (h : x ≠ m) :
    (p.set x v).getD m d = p.getD m d := by
  rw [List.getD_eq_getElem?_getD, List.getD_eq_getElem?_getD,
    List.getElem?_set_ne h]

theorem getD_set_self {p : List Nat} {x : Nat} (v d : Nat) (h : x < p.length) :
    (p.set x v).getD x d = v := by
  rw [List.getD_eq_getElem?_getD, List.getElem?_set_eq_of_lt _ h]
  rfl

theorem rootedN_funct {p : List Nat} {x r r' d d' : Nat}
    (h1 : RootedN p x r d) (h2 : RootedN p x r' d') : r = r' ∧ d = d' := by
  induction h1 generalizing r' d' with
  | self x hx =>
    cases h2 with
    | self => exact ⟨rfl, rfl⟩
    | step _ _ _ hne _ => exact absurd hx hne
  | step x r d hne hrec ih =>
    cases h2 with
    | self _ hx => exact absurd hx hne
    | step _ _ d2 _ hrec2 =>
      obtain ⟨hr, hd⟩ := ih hrec2
      exact ⟨hr, by rw [hd]⟩

theorem rooted_funct {p : List Nat} {x r r' : Nat}
    (h1 : Rooted p x r) (h2 : Rooted p x r') : r = r' := by
  obtain ⟨d, h1⟩ := h1
  obtain ⟨d', h2⟩ := h2
  exact (rootedN_funct h1 h2).1

theorem rootedN_fix {p : List Nat} {x r d : Nat} (h : RootedN p x r d) :
    p.getD r r = r := by
  induction h with
  | self x hx => exact hx
  | step x r d hne hrec ih => exact ih

theorem rooted_of_out_of_range {p : List Nat} {x : Nat} (h : p.length ≤ x) :
    RootedN p x x 0 :=
  RootedN.self x (List.getD_eq_default _ _ h)

theorem rootedN_lt_of_ne {p : List Nat} {x : Nat} (h : p.getD x x ≠ x) :
    x < p.length := by
  by_contra hx
  exact h (List.getD_eq_default _ _ (Nat.le_of_not_lt hx))

theorem chainIter_rootedN {p : List Nat} {x r d : Nat}
    (h : RootedN p x r d) :
    ∀ i, i ≤ d → RootedN p (chainIter p i x) r (d - i) := by
  intro i
  induction i generalizing x d with
  | zero =>
    intro _
    exact h
  | succ i ih =>
    intro hle
    cases h with
    | self _ hx => omega
    | step _ _ d0 hne hrec =>
      have h2 := ih hrec (by omega)
      rw [show chainIter p (i + 1) x = chainIter p i (p.getD x x) from rfl,
        show d0 + 1 - (i + 1) = d0 - i by omega]
      exact h2

theorem chainIter_lt {p : List Nat} (hc : UFclosed p) {x : Nat}
    (hx : x < p.length) : ∀ i, chainIter p i x < p.length := by
  intro i
  induction i generalizing x with
  | zero => exact hx
  | succ i ih =>
    rw [show chainIter p (i + 1) x = chainIter p i (p.getD x x) from rfl]
    exact ih (hc x hx)

/-- Parent chains are acyclic, so depths are bounded by the array length. -/
theorem rootedN_depth_lt {p : List Nat} (hc : UFclosed p) {x r d : Nat}
    (hx : x < p.length) (h : RootedN p x r d) : d < p.length := by
  have hinj : ∀ i j, i ≤ d → j ≤ d → chainIter p i x = chainIter p j x → i = j := by
    intro i j hi hj he
    have h1 := chainIter_rootedN h i hi
    have h2 := chainIter_rootedN h j hj
    rw [he] at h1
    have := (rootedN_funct h1 h2).2
    omega
  have hmap : ∀ i ∈ Finset.range (d + 1), chainIter p i x ∈ Finset.range p.length := by
    intro i _
    rw [Finset.mem_range]
    exact chainIter_lt hc hx i
  have hcard := Finset.card_le_card_of_injOn (fun i => chainIter p i x) hmap
    (fun i hi j hj he => hinj i j
      (by have := Finset.mem_range.mp hi; omega)
      (by have := Finset.mem_range.mp hj; omega) he)
  simp only [Finset.card_range] at hcard
  omega

/-- Writing at an index strictly deeper than a chain leaves that chain
intact. -/
theorem rootedN_set_of_depth_lt {p : List Nat} {x r d : Nat} (v : Nat)
    (hx : RootedN p x r d) :
    ∀ {y s m}, RootedN p y s m → m < d → RootedN (p.set x v) y s m := by
  intro y s m hy
  induction hy with
  | self y hy0 =>
    intro hlt
    have hyx : y ≠ x := by
      rintro rfl
      have := (rootedN_funct (RootedN.self y hy0) hx).2
      omega
    exact RootedN.self y (by rw [getD_set_ne v y hyx.symm]; exact hy0)
  | step y s m0 hne hrec ih =>
    intro hlt
    have hyx : y ≠ x := by
      rintro rfl
      have := (rootedN_funct (RootedN.step y s m0 hne hrec) hx).2
      omega
    have h1 := ih (by omega)
    have he : (p.set x v).getD y y = p.getD y y := getD_set_ne v y hyx.symm
    refine RootedN.step y s m0 ?_ ?_
    · rw [he]
      exact hne
    · rw [he]
      exact h1

/-- Path compression redirects a node to a shallower member of its own
chain; classes are unchanged, forward direction. -/
theorem reroute_fwd {p : List Nat} {x v r dx dv : Nat}
    (hx : RootedN p x r dx) (hv : RootedN p v r dv) (hlt : dv < dx) :
    ∀ m y s, RootedN p y s m → Rooted (p.set x v) y s := by
  have hvx : v ≠ x := by
    rintro rfl
    have := (rootedN_funct hv hx).2
    omega
  have hxnr : p.getD x x ≠ x := by
    intro hroot
    have := (rootedN_funct hx (RootedN.self x hroot)).2
    omega
  have hxlt : x < p.length := rootedN_lt_of_ne hxnr
  intro m
  induction m using Nat.strong_induction_on with
  | _ m ih =>
    intro y s hy
    by_cases hyx : y = x
    · subst hyx
      obtain ⟨hsr, hmd⟩ := rootedN_funct hy hx
      subst hsr
      have hrec : Rooted (p.set y v) v s := ih dv (by omega) v s hv
      obtain ⟨dv2, hrec2⟩ := hrec
      refine ⟨dv2 + 1, RootedN.step y s dv2 ?_ ?_⟩
      · rw [getD_set_self v y hxlt]
        exact hvx
      · rw [getD_set_self v y hxlt]
        exact hrec2
    · cases hy with
      | self _ hy0 =>
        exact ⟨0, RootedN.self y (by rw [getD_set_ne v y (fun he => hyx he.symm)]; exact hy0)⟩
      | step _ _ m0 hne hrec =>
        have h1 : Rooted (p.set x v) (p.getD y y) s := ih m0 (by omega) _ s hrec
        obtain ⟨d2, h2⟩ := h1
        have he : (p.set x v).getD y y = p.getD y y :=
          getD_set_ne v y (fun he => hyx he.symm)
        refine ⟨d2 + 1, RootedN.step y s d2 ?_ ?_⟩
        · rw [he]
          exact hne
        · rw [he]
          exact h2

/-- Path compression, backward direction. -/
theorem reroute_bwd {p : List Nat} {x v r dx dv : Nat}
    (hx : RootedN p x r dx) (hv : RootedN p v r dv) (hlt : dv < dx) :
    ∀ m y s, RootedN (p.set x v) y s m → Rooted p y s := by
  have hvx : v ≠ x := by
    rintro rfl
    have := (rootedN_funct hv hx).2
    omega
  have hxnr : p.getD x x ≠ x := by
    intro hroot
    have := (rootedN_funct hx (RootedN.self x hroot)).2
    omega
  have hxlt : x < p.length := rootedN_lt_of_ne hxnr
  intro m
  induction m using Nat.strong_induction_on with
  | _ m ih =>
    intro y s hy
    by_cases hyx : y = x
    · subst hyx
      cases hy with
      | self _ hy0 =>
        rw [getD_set_self v y hxlt] at hy0
        exact absurd hy0 hvx
      | step _ _ m0 hne hrec =>
        rw [getD_set_self v y hxlt] at hrec
        have h1 : Rooted p v s := ih m0 (by omega) v s hrec
        have hsr : s = r := rooted_funct h1 ⟨dv, hv⟩
        subst hsr
        exact ⟨dx, hx⟩
    · have he : (p.set x v).getD y y = p.getD y y :=
        getD_set_ne v y (fun he => hyx he.symm)
      cases hy with
      | self _ hy0 =>
        rw [he] at hy0
        exact ⟨0, RootedN.self y hy0⟩
      | step _ _ m0 hne hrec =>
        rw [he] at hne hrec
        obtain ⟨d2, h2⟩ := ih m0 (by omega) _ s hrec
        exact ⟨d2 + 1, RootedN.step y s d2 hne h2⟩

theorem reroute_iff {p : List Nat} {x v r dx dv : Nat}
    (hx : RootedN p x r dx) (hv : RootedN p v r dv) (hlt : dv < dx) :
    ∀ y s, Rooted p y s ↔ Rooted (p.set x v) y s := by
  intro y s
  constructor
  · rintro ⟨m, hm⟩
    exact reroute_fwd hx hv hlt m y s hm
  · rintro ⟨m, hm⟩
    exact reroute_bwd hx hv hlt m y s hm

theorem ufclosed_set {p : List Nat} (hc : UFclosed p) {x v : Nat}
    (hv : v < p.length) : UFclosed (p.set x v) := by
  intro i hi
  rw [List.length_set] at hi
  by_cases hix : x = i
  · subst hix
    rw [getD_set_self v x hi, List.length_set]
    exact hv
  · rw [getD_set_ne v i hix, List.length_set]
    exact hc i hi

theorem rootedN_root_lt {p : List Nat} (hc : UFclosed p) {x r d : Nat}
    (hx : x < p.length) (h : RootedN p x r d) : r < p.length := by
  induction h with
  | self y hy0 => exact hx
  | step y r d hne hrec ih => exact ih (hc y (rootedN_lt_of_ne hne))

/-- Full specification of the fuelled mutating `_find`: with enough fuel it
returns the root, preserves length and closure, and leaves every class
unchanged. -/
theorem ffind_spec (fuel : Nat) : ∀ (p : List Nat) (x r d : Nat),
    RootedN p x r d → d ≤ fuel →
    (ffind fuel p x).1 = r ∧ (ffind fuel p x).2.length = p.length ∧
    (UFclosed p → UFclosed (ffind fuel p x).2) ∧
    (∀ y s, Rooted (ffind fuel p x).2 y s ↔ Rooted p y s) := by
  induction fuel with
  | zero =>
    intro p x r d hd hle
    cases hd with
    | self _ hx0 => exact ⟨rfl, rfl, fun h => h, fun y s => Iff.rfl⟩
    | step _ _ d0 hne hrec => omega
  | succ fuel ih =>
    intro p x r d hd hle
    have hunf : ffind (fuel + 1) p x =
        (if p.getD x x = x then (x, p)
         else ffind fuel (p.set x (p.getD (p.getD x x) (p.getD x x)))
           (p.getD (p.getD x x) (p.getD x x))) := rfl
    by_cases hpx : p.getD x x = x
    · have hres : ffind (fuel + 1) p x = (x, p) := by rw [hunf, if_pos hpx]
      cases hd with
      | self _ hx0 =>
        rw [hres]
        exact ⟨rfl, rfl, fun h => h, fun y s => Iff.rfl⟩
      | step _ _ d0 hne hrec => exact absurd hpx hne
    · have hres : ffind (fuel + 1) p x =
          ffind fuel (p.set x (p.getD (p.getD x x) (p.getD x x)))
            (p.getD (p.getD x x) (p.getD x x)) := by rw [hunf, if_neg hpx]
      have hxlt : x < p.length := rootedN_lt_of_ne hpx
      cases hd with
      | self _ hx0 => exact absurd hx0 hpx
      | step _ _ d0 hne hrec =>
        by_cases hpxroot : p.getD (p.getD x x) (p.getD x x) = p.getD x x
        · cases hrec with
          | self _ hq =>
            have hres2 : ffind (fuel + 1) p x =
                ffind fuel (p.set x (p.getD x x)) (p.getD x x) := by
              rw [hres, hpxroot]
            have hder : RootedN p x (p.getD x x) 1 :=
              RootedN.step x (p.getD x x) 0 hpx (RootedN.self _ hq)
            have hvder : RootedN p (p.getD x x) (p.getD x x) 0 := RootedN.self _ hq
            have hiff := reroute_iff hder hvder (by omega)
            have hder2 : RootedN (p.set x (p.getD x x)) (p.getD x x) (p.getD x x) 0 := by
              refine RootedN.self _ ?_
              rw [getD_set_ne _ _ (Ne.symm hpx)]
              exact hq
            obtain ⟨hr1, hr2, hr3, hr4⟩ := ih _ _ _ _ hder2 (by omega)
            rw [hres2]
            refine ⟨hr1, by rw [hr2, List.length_set], ?_, ?_⟩
            · intro hc
              exact hr3 (ufclosed_set hc (hc x hxlt))
            · intro y s
              rw [hr4]
              exact (hiff y s).symm
          | step _ _ d1 hne2 hrec2 => exact absurd hpxroot hne2
        · cases hrec with
          | self _ hq => exact absurd hq hpxroot
          | step _ _ d1 hne2 hrec2 =>
            have hder : RootedN p x r (d1 + 1 + 1) :=
              RootedN.step x r (d1 + 1) hpx (RootedN.step _ r d1 hne2 hrec2)
            have hiff := reroute_iff hder hrec2 (by omega)
            have hder2 : RootedN (p.set x (p.getD (p.getD x x) (p.getD x x)))
                (p.getD (p.getD x x) (p.getD x x)) r d1 :=
              rootedN_set_of_depth_lt _ hder hrec2 (by omega)
            obtain ⟨hr1, hr2, hr3, hr4⟩ := ih _ _ _ _ hder2 (by omega)
            rw [hres]
            refine ⟨hr1, by rw [hr2, List.length_set], ?_, ?_⟩
            · intro hc
              exact hr3 (ufclosed_set hc (hc _ (hc x hxlt)))
            · intro y s
              rw [hr4]
              exact (hiff y s).symm

theorem rooted_fix {p : List Nat} {a s : Nat} (h : Rooted p a s) :
    p.getD s s = s := by
  obtain ⟨d, h⟩ := h
  exact rootedN_fix h

/-- Grafting root `rx` onto root `ry` leaves every chain ending elsewhere
untouched. -/
theorem link_fwd_ne {p : List Nat} {rx ry : Nat} (hrx : p.getD rx rx = rx) :
    ∀ {a s m}, RootedN p a s m → s ≠ rx → RootedN (p.set rx ry) a s m := by
  intro a s m h
  induction h with
  | self a ha =>
    intro hs
    exact RootedN.self a (by rw [getD_set_ne _ _ (Ne.symm hs)]; exact ha)
  | step a s m0 hne2 hrec ih =>
    intro hs
    have hax : rx ≠ a := by
      rintro rfl
      exact hne2 hrx
    have he : (p.set rx ry).getD a a = p.getD a a := getD_set_ne _ _ hax
    refine RootedN.step a s m0 ?_ ?_
    · rw [he]
      exact hne2
    · rw [he]
      exact ih hs

/-- Grafting root `rx` onto root `ry` redirects every chain ending at `rx`
to `ry`. -/
theorem link_fwd_rx {p : List Nat} {rx ry : Nat} (hrx : p.getD rx rx = rx)
    (hry : p.getD ry ry = ry) (hne : rx ≠ ry) (hlt : rx < p.length) :
    ∀ m {a}, RootedN p a rx m → Rooted (p.set rx ry) a ry := by
  intro m
  induction m using Nat.strong_induction_on with
  | _ m ih =>
    intro a h
    cases h with
    | self _ ha =>
      refine ⟨1, RootedN.step rx ry 0 ?_ ?_⟩
      · rw [getD_set_self _ _ hlt]
        exact Ne.symm hne
      · rw [getD_set_self _ _ hlt]
        exact RootedN.self ry (by rw [getD_set_ne _ _ hne]; exact hry)
    | step _ _ m0 hne2 hrec =>
      have hax : rx ≠ a := by
        rintro rfl
        exact hne2 hrx
      have he : (p.set rx ry).getD a a = p.getD a a := getD_set_ne _ _ hax
      obtain ⟨d2, h2⟩ := ih m0 (by omega) hrec
      refine ⟨d2 + 1, RootedN.step a ry d2 ?_ ?_⟩
      · rw [he]
        exact hne2
      · rw [he]
        exact h2

/-- Every chain of the grafted array comes from a chain of the original,
with the root translated through the grafting map. -/
theorem link_bwd {p : List Nat} {rx ry : Nat} (hrx : p.getD rx rx = rx)
    (hry : p.getD ry ry = ry) (hne : rx ≠ ry) (hlt : rx < p.length) :
    ∀ {a s m}, RootedN (p.set rx ry) a s m →
      ∃ s0, Rooted p a s0 ∧ s = (if s0 = rx then ry else s0) := by
  intro a s m h
  induction h with
  | self a ha =>
    by_cases hax : a = rx
    · subst hax
      rw [getD_set_self _ _ hlt] at ha
      exact absurd ha (Ne.symm hne)
    · rw [getD_set_ne _ _ (fun he => hax he.symm)] at ha
      exact ⟨a, ⟨0, RootedN.self a ha⟩, by rw [if_neg hax]⟩
  | step a s m0 hne2 hrec ih =>
    by_cases hax : a = rx
    · subst hax
      have heq : (p.set a ry).getD a a = ry := getD_set_self _ _ hlt
      obtain ⟨s0, hs0, hs⟩ := ih
      rw [heq] at hs0
      have hs0ry : s0 = ry := rooted_funct hs0 ⟨0, RootedN.self ry hry⟩
      subst hs0ry
      rw [if_neg (Ne.symm hne)] at hs
      exact ⟨a, ⟨0, RootedN.self a hrx⟩, by rw [if_pos rfl]; exact hs⟩
    · have he : (p.set rx ry).getD a a = p.getD a a :=
        getD_set_ne _ _ (fun he => hax he.symm)
      rw [he] at hne2 hrec ih
      obtain ⟨s0, ⟨d0, h0⟩, hs⟩ := ih
      exact ⟨s0, ⟨d0 + 1, RootedN.step a s0 d0 hne2 h0⟩, hs⟩

/-- Full effect of `parent[rx] = ry` on two distinct roots: every class root
is translated through `s0 = rx ? ry : s0`. -/
theorem link_rooted_iff {p : List Nat} {rx ry : Nat} (hrx : p.getD rx rx = rx)
    (hry : p.getD ry ry = ry) (hne : rx ≠ ry) (hlt : rx < p.length) :
    ∀ a s, Rooted (p.set rx ry) a s ↔
      ∃ s0, Rooted p a s0 ∧ s = (if s0 = rx then ry else s0) := by
  intro a s
  constructor
  · rintro ⟨m, hm⟩
    exact link_bwd hrx hry hne hlt hm
  · rintro ⟨s0, ⟨d0, h0⟩, hs⟩
    by_cases h0x : s0 = rx
    · subst h0x
      rw [if_pos rfl] at hs
      subst hs
      exact link_fwd_rx hrx hry hne hlt d0 h0
    · rw [if_neg h0x] at hs
      subst hs
      exact ⟨d0, link_fwd_ne hrx h0 h0x⟩

/-- Specification of the mutating `_union`: length and closure are preserved
and the class roots are translated through `s0 = rx ? ry : s0`, where `rx`,
`ry` are the prior roots of the two arguments. -/
theorem ufUnion_rooted {p : List Nat} (hc : UFclosed p) {x y rx ry : Nat}
    (hx : x < p.length) (hy : y < p.length)
    (hrx : Rooted p x rx) (hry : Rooted p y ry) :
    (ufUnion p x y).length = p.length ∧ UFclosed (ufUnion p x y) ∧
    (∀ a s, Rooted (ufUnion p x y) a s ↔
      ∃ s0, Rooted p a s0 ∧ s = (if s0 = rx then ry else s0)) := by
  obtain ⟨dx, hdx⟩ := hrx
  have hdxlt : dx < p.length := rootedN_depth_lt hc hx hdx
  obtain ⟨h1a, h1b, h1c', h1d⟩ :=
    ffind_spec p.length p x rx dx hdx (le_of_lt hdxlt)
  have h1c := h1c' hc
  have hryp1 : Rooted (ffind p.length p x).2 y ry := (h1d y ry).mpr hry
  obtain ⟨dy, hdy⟩ := hryp1
  have hylt1 : y < (ffind p.length p x).2.length := by rw [h1b]; exact hy
  have hdylt : dy < (ffind p.length p x).2.length :=
    rootedN_depth_lt h1c hylt1 hdy
  obtain ⟨h2a, h2b, h2c', h2d⟩ :=
    ffind_spec (ffind p.length p x).2.length (ffind p.length p x).2 y ry dy hdy
      (le_of_lt hdylt)
  have h2c := h2c' h1c
  have hiff2 : ∀ a s,
      Rooted (ffind (ffind p.length p x).2.length (ffind p.length p x).2 y).2 a s ↔
      Rooted p a s := fun a s => (h2d a s).trans (h1d a s)
  have hlen2 :
      (ffind (ffind p.length p x).2.length (ffind p.length p x).2 y).2.length =
        p.length := by rw [h2b, h1b]
  have hu0 : ufUnion p x y =
      (if (ffind p.length p x).1 ≠
          (ffind (ffind p.length p x).2.length (ffind p.length p x).2 y).1 then
        (ffind (ffind p.length p x).2.length (ffind p.length p x).2 y).2.set
          (ffind p.length p x).1
          (ffind (ffind p.length p x).2.length (ffind p.length p x).2 y).1
      else (ffind (ffind p.length p x).2.length (ffind p.length p x).2 y).2) := rfl
  have hu : ufUnion p x y =
      (if rx ≠ ry then
        (ffind (ffind p.length p x).2.length (ffind p.length p x).2 y).2.set rx ry
      else (ffind (ffind p.length p x).2.length (ffind p.length p x).2 y).2) := by
    rw [hu0, h1a, h2a]
  by_cases hxy : rx = ry
  · subst hxy
    rw [hu, if_neg (by simp)]
    refine ⟨hlen2, h2c, ?_⟩
    intro a s
    rw [hiff2 a s]
    constructor
    · intro h
      refine ⟨s, h, ?_⟩
      by_cases h0 : s = rx
      · rw [if_pos h0, h0]
      · rw [if_neg h0]
    · rintro ⟨s0, h0, hs⟩
      have hss0 : s = s0 := by
        by_cases hb : s0 = rx
        · rw [hs, if_pos hb, hb]
        · rw [hs, if_neg hb]
      rw [hss0]
      exact h0
  · have hfx : Rooted p rx rx := ⟨0, RootedN.self rx (rootedN_fix hdx)⟩
    have hfy : Rooted p ry ry :=
      (h1d ry ry).mp ⟨0, RootedN.self ry (rootedN_fix hdy)⟩
    obtain ⟨dfx, hdfx⟩ :=
      (hiff2 rx rx).mpr hfx
    obtain ⟨dfy, hdfy⟩ :=
      (hiff2 ry ry).mpr hfy
    have hfix2x := rootedN_fix hdfx
    have hfix2y := rootedN_fix hdfy
    have hrxlt : rx <
        (ffind (ffind p.length p x).2.length (ffind p.length p x).2 y).2.length := by
      rw [hlen2]
      exact rootedN_root_lt hc hx hdx
    have hrylt : ry <
        (ffind (ffind p.length p x).2.length (ffind p.length p x).2 y).2.length := by
      rw [h2b]
      exact rootedN_root_lt h1c hylt1 hdy
    rw [hu, if_pos hxy]
    refine ⟨by rw [List.length_set]; exact hlen2, ufclosed_set h2c hrylt, ?_⟩
    intro a s
    rw [link_rooted_iff hfix2x hfix2y hxy hrxlt a s]
    constructor
    · rintro ⟨s0, h0, hs⟩
      exact ⟨s0, (hiff2 a s0).mp h0, hs⟩
    · rintro ⟨s0, h0, hs⟩
      exact ⟨s0, (hiff2 a s0).mpr h0, hs⟩

theorem sameClass_symm {p : List Nat} {a b : Nat} (h : SameClass p a b) :
    SameClass p b a := by
  obtain ⟨r0, h1, h2⟩ := h
  exact ⟨r0, h2, h1⟩

theorem sameClass_trans {p : List Nat} {a b c : Nat} (h1 : SameClass p a b)
    (h2 : SameClass p b c) : SameClass p a c := by
  obtain ⟨r1, ha, hb⟩ := h1
  obtain ⟨r2, hb2, hc⟩ := h2
  rw [rooted_funct hb hb2] at ha
  exact ⟨r2, ha, hc⟩

/-- Packaged specification of `_union` in terms of classes. -/
theorem ufUnion_spec {p : List Nat} (hc : UFclosed p) (ht : UFtotal p)
    {x y : Nat} (hx : x < p.length) (hy : y < p.length) :
    (ufUnion p x y).length = p.length ∧ UFclosed (ufUnion p x y) ∧
    UFtotal (ufUnion p x y) ∧ SameClass (ufUnion p x y) x y ∧
    (∀ a b, SameClass p a b → SameClass (ufUnion p x y) a b) ∧
    (∀ a b, SameClass (ufUnion p x y) a b →
      SameClass p a b ∨ (SameClass p a x ∧ SameClass p b y) ∨
      (SameClass p a y ∧ SameClass p b x)) := by
  obtain ⟨rx, hrx⟩ := ht x
  obtain ⟨ry, hry⟩ := ht y
  obtain ⟨hl, hcl, hiff⟩ := ufUnion_rooted hc hx hy hrx hry
  refine ⟨hl, hcl, ?_, ?_, ?_, ?_⟩
  · intro a
    obtain ⟨s0, h0⟩ := ht a
    exact ⟨_, (hiff a _).mpr ⟨s0, h0, rfl⟩⟩
  · refine ⟨ry, (hiff x ry).mpr ⟨rx, hrx, by rw [if_pos rfl]⟩,
      (hiff y ry).mpr ⟨ry, hry, ?_⟩⟩
    by_cases h0 : ry = rx
    · rw [if_pos h0, h0]
    · rw [if_neg h0]
  · rintro a b ⟨r0, ha, hb⟩
    exact ⟨_, (hiff a _).mpr ⟨r0, ha, rfl⟩, (hiff b _).mpr ⟨r0, hb, rfl⟩⟩
  · rintro a b ⟨s, hsa, hsb⟩
    obtain ⟨sa, ha, hfa⟩ := (hiff a s).mp hsa
    obtain ⟨sb, hb, hfb⟩ := (hiff b s).mp hsb
    by_cases hax : sa = rx
    · by_cases hbx : sb = rx
      · exact Or.inl ⟨rx, hax ▸ ha, hbx ▸ hb⟩
      · rw [if_pos hax] at hfa
        rw [if_neg hbx] at hfb
        refine Or.inr (Or.inl ⟨⟨rx, hax ▸ ha, hrx⟩, ⟨ry, ?_, hry⟩⟩)
        rw [show sb = ry by rw [← hfb, hfa]] at hb
        exact hb
    · by_cases hbx : sb = rx
      · rw [if_neg hax] at hfa
        rw [if_pos hbx] at hfb
        refine Or.inr (Or.inr ⟨⟨ry, ?_, hry⟩, ⟨rx, hbx ▸ hb, hrx⟩⟩)
        rw [show sa = ry by rw [← hfa, hfb]] at ha
        exact ha
      · rw [if_neg hax] at hfa
        rw [if_neg hbx] at hfb
        refine Or.inl ⟨sa, ha, ?_⟩
        rw [show sb = sa by rw [← hfb, hfa]] at hb
        exact hb

theorem mem_pairsUpTo {n a b : Nat} : (a, b) ∈ pairsUpTo n ↔ a < b ∧ b < n := by
  unfold pairsUpTo
  rw [List.mem_flatMap]
  constructor
  · rintro ⟨i, hi, hmem⟩
    rw [List.mem_filterMap] at hmem
    obtain ⟨j, hj, hij⟩ := hmem
    by_cases hlt : i < j
    · rw [if_pos hlt] at hij
      injection hij with h
      cases h
      exact ⟨hlt, List.mem_range.mp hj⟩
    · rw [if_neg hlt] at hij
      cases hij
  · rintro ⟨hab, hbn⟩
    refine ⟨a, List.mem_range.mpr (lt_trans hab hbn), ?_⟩
    rw [List.mem_filterMap]
    exact ⟨b, List.mem_range.mpr hbn, by rw [if_pos hab]⟩

theorem simEdgeB_symm (r : String → String → ℚ) (thr : ℚ) (texts : List String)
    (i j : Nat) : simEdgeB r thr texts i j = simEdgeB r thr texts j i := by
  unfold simEdgeB
  rcases Nat.lt_trichotomy i j with h | h | h
  · rw [if_pos h, if_neg (by omega : ¬ j < i), if_pos h,
      Bool.and_comm (decide (i < texts.length)) (decide (j < texts.length))]
  · rw [h]
  · rw [if_neg (by omega : ¬ i < j), if_pos h, if_pos h,
      Bool.and_comm (decide (i < texts.length)) (decide (j < texts.length))]

theorem simEdgeB_elim {r : String → String → ℚ} {thr : ℚ} {texts : List String}
    {i j : Nat} (h : simEdgeB r thr texts i j = true) :
    i < texts.length ∧ j < texts.length ∧
    ((i < j ∧ thr ≤ r (texts.getD i "") (texts.getD j "")) ∨
     (j < i ∧ thr ≤ r (texts.getD j "") (texts.getD i ""))) := by
  unfold simEdgeB at h
  rw [Bool.and_assoc, Bool.and_eq_true, Bool.and_eq_true] at h
  obtain ⟨h1, h2, h3⟩ := h
  refine ⟨of_decide_eq_true h1, of_decide_eq_true h2, ?_⟩
  by_cases hij : i < j
  · rw [if_pos hij] at h3
    exact Or.inl ⟨hij, of_decide_eq_true h3⟩
  · rw [if_neg hij] at h3
    by_cases hji : j < i
    · rw [if_pos hji] at h3
      exact Or.inr ⟨hji, of_decide_eq_true h3⟩
    · rw [if_neg hji] at h3
      cases h3

theorem simEdgeB_intro {r : String → String → ℚ} {thr : ℚ} {texts : List String}
    {i j : Nat} (hij : i < j) (hj : j < texts.length)
    (ht : thr ≤ r (texts.getD i "") (texts.getD j "")) :
    simEdgeB r thr texts i j = true := by
  unfold simEdgeB
  rw [if_pos hij, decide_eq_true (lt_trans hij hj), decide_eq_true hj,
    decide_eq_true ht]
  rfl

/-- Invariant of the double union loop: the array stays well-formed, classes
only combine along similarity edges, and every processed similar pair ends up
in one class. -/
theorem foldl_union_inv (r : String → String → ℚ) (thr : ℚ)
    (texts : List String) :
    ∀ (l : List (Nat × Nat)) (p : List Nat),
    p.length = texts.length → UFclosed p → UFtotal p →
    (∀ a b, SameClass p a b →
      Conn (fun i j => simEdgeB r thr texts i j = true) a b) →
    (∀ ij ∈ l, ij.1 < ij.2 ∧ ij.2 < texts.length) →
    (l.foldl (unionStep r thr texts) p).length = texts.length ∧
    UFclosed (l.foldl (unionStep r thr texts) p) ∧
    UFtotal (l.foldl (unionStep r thr texts) p) ∧
    (∀ a b, SameClass (l.foldl (unionStep r thr texts) p) a b →
      Conn (fun i j => simEdgeB r thr texts i j = true) a b) ∧
    (∀ a b, SameClass p a b →
      SameClass (l.foldl (unionStep r thr texts) p) a b) ∧
    (∀ ij ∈ l, simEdgeB r thr texts ij.1 ij.2 = true →
      SameClass (l.foldl (unionStep r thr texts) p) ij.1 ij.2) := by
  intro l
  induction l with
  | nil =>
    intro p h1 h2 h3 h4 h5
    exact ⟨h1, h2, h3, h4, fun a b h => h,
      fun ij h => absurd h (List.not_mem_nil _)⟩
  | cons ij rest ih =>
    intro p h1 h2 h3 h4 h5
    have hfold : (ij :: rest).foldl (unionStep r thr texts) p =
        rest.foldl (unionStep r thr texts) (unionStep r thr texts p ij) := rfl
    obtain ⟨hij1, hij2⟩ := h5 ij (List.mem_cons_self _ _)
    by_cases htest : thr ≤ r (texts.getD ij.1 "") (texts.getD ij.2 "")
    · have hq : unionStep r thr texts p ij = ufUnion p ij.1 ij.2 := by
        unfold unionStep
        rw [if_pos htest]
      have hx : ij.1 < p.length := by rw [h1]; omega
      have hy : ij.2 < p.length := by rw [h1]; omega
      obtain ⟨u1, u2, u3, u4, u5, u6⟩ := ufUnion_spec h2 h3 hx hy
      have hedge : simEdgeB r thr texts ij.1 ij.2 = true :=
        simEdgeB_intro hij1 hij2 htest
      have hsound : ∀ a b, SameClass (ufUnion p ij.1 ij.2) a b →
          Conn (fun i j => simEdgeB r thr texts i j = true) a b := by
        intro a b hab
        rcases u6 a b hab with h | ⟨hax, hby⟩ | ⟨hay, hbx⟩
        · exact h4 a b h
        · exact Conn.trans (h4 _ _ hax)
            (Conn.trans (Conn.rel _ _ hedge) (Conn.symm (h4 b ij.2 hby)))
        · exact Conn.trans (h4 _ _ hay)
            (Conn.trans (Conn.symm (Conn.rel _ _ hedge))
              (Conn.symm (h4 b ij.1 hbx)))
      obtain ⟨g1, g2, g3, g4, g5, g6⟩ := ih (ufUnion p ij.1 ij.2)
        (by rw [u1, h1]) u2 u3 hsound
        (fun kl hkl => h5 kl (List.mem_cons_of_mem _ hkl))
      rw [hfold, hq]
      refine ⟨g1, g2, g3, g4, fun a b h => g5 a b (u5 a b h), ?_⟩
      rintro kl hkl hkedge
      rcases List.mem_cons.mp hkl with rfl | hmem
      · exact g5 _ _ u4
      · exact g6 kl hmem hkedge
    · have hq : unionStep r thr texts p ij = p := by
        unfold unionStep
        rw [if_neg htest]
      obtain ⟨g1, g2, g3, g4, g5, g6⟩ := ih p h1 h2 h3 h4
        (fun kl hkl => h5 kl (List.mem_cons_of_mem _ hkl))
      rw [hfold, hq]
      refine ⟨g1, g2, g3, g4, g5, ?_⟩
      rintro kl hkl hkedge
      rcases List.mem_cons.mp hkl with rfl | hmem
      · rcases (simEdgeB_elim hkedge).2.2 with ⟨_, hcon⟩ | ⟨hlt, _⟩
        · exact absurd hcon htest
        · omega
      · exact g6 kl hmem hkedge

theorem getD_range {n x : Nat} : (List.range n).getD x x = x := by
  by_cases h : x < n
  · rw [List.getD_eq_getElem?_getD, List.getElem?_range h]
    rfl
  · exact List.getD_eq_default _ _ (by rw [List.length_range]; omega)

theorem rootedN_range {n x s d : Nat} (h : RootedN (List.range n) x s d) :
    s = x := by
  cases h with
  | self => rfl
  | step _ _ _ hne _ => exact absurd getD_range hne

/-- After the whole union loop, two rows are in one class exactly when they
are connected in the similarity graph. -/
theorem nearDedupParent_spec (r : String → String → ℚ) (thr : ℚ)
    (texts : List String) :
    (nearDedupParent r thr texts).length = texts.length ∧
    UFclosed (nearDedupParent r thr texts) ∧
    UFtotal (nearDedupParent r thr texts) ∧
    (∀ a b, SameClass (nearDedupParent r thr texts) a b ↔
      Conn (fun i j => simEdgeB r thr texts i j = true) a b) := by
  have hdef : nearDedupParent r thr texts =
      (pairsUpTo texts.length).foldl (unionStep r thr texts)
        (List.range texts.length) := rfl
  have hcl : UFclosed (List.range texts.length) := by
    intro i hi
    rw [List.length_range] at hi
    rw [getD_range, List.length_range]
    exact hi
  have htot : UFtotal (List.range texts.length) :=
    fun x => ⟨x, 0, RootedN.self x getD_range⟩
  have hsound0 : ∀ a b, SameClass (List.range texts.length) a b →
      Conn (fun i j => simEdgeB r thr texts i j = true) a b := by
    rintro a b ⟨r0, ⟨da, ha⟩, ⟨db, hb⟩⟩
    rw [show a = b by rw [← rootedN_range ha, ← rootedN_range hb]]
    exact Conn.refl b
  obtain ⟨g1, g2, g3, g4, g5, g6⟩ := foldl_union_inv r thr texts
    (pairsUpTo texts.length) (List.range texts.length)
    (List.length_range _) hcl htot hsound0
    (fun ij hij => mem_pairsUpTo.mp ((Prod.mk.eta (p := ij)) ▸ hij))
  rw [hdef]
  refine ⟨g1, g2, g3, ?_⟩
  intro a b
  refine ⟨g4 a b, ?_⟩
  intro hconn
  induction hconn with
  | rel x y hxy =>
    rcases (simEdgeB_elim hxy).2.2 with ⟨hlt, _⟩ | ⟨hlt, _⟩
    · exact g6 (x, y) (mem_pairsUpTo.mpr ⟨hlt, (simEdgeB_elim hxy).2.1⟩) hxy
    · exact sameClass_symm (g6 (y, x)
        (mem_pairsUpTo.mpr ⟨hlt, (simEdgeB_elim hxy).1⟩)
        ((simEdgeB_symm r thr texts y x).trans hxy))
  | refl x =>
    obtain ⟨r0, h0⟩ := g3 x
    exact ⟨r0, h0, h0⟩
  | symm _ ihc => exact sameClass_symm ihc
  | trans _ _ ih1 ih2 => exact sameClass_trans ih1 ih2

theorem getD_range0 {n k : Nat} (h : k < n) (d : Nat) :
    (List.range n).getD k d = k := by
  rw [List.getD_eq_getElem?_getD, List.getElem?_range h]
  rfl

theorem findAll_eq (p : List Nat) (idxs : List Nat) :
    findAll p idxs = idxs.foldl findStep ([], p) := rfl

/-- Invariant of one find pass, with a general accumulator: the returned
prefix extends pointwise by the roots of the visited indices, and the array
keeps its length, closure and classes. -/
theorem findAll_go :
    ∀ (idxs : List Nat) (acc : List Nat) (p : List Nat),
    UFclosed p → UFtotal p → (∀ i ∈ idxs, i < p.length) →
    ∃ rs : List Nat,
      (idxs.foldl findStep (acc, p)).1 = acc ++ rs ∧
      (idxs.foldl findStep (acc, p)).2.length = p.length ∧
      UFclosed (idxs.foldl findStep (acc, p)).2 ∧
      (∀ a s, Rooted (idxs.foldl findStep (acc, p)).2 a s ↔ Rooted p a s) ∧
      rs.length = idxs.length ∧
      (∀ k, k < idxs.length → Rooted p (idxs.getD k 0) (rs.getD k 0)) := by
  intro idxs
  induction idxs with
  | nil =>
    intro acc p hc ht hb
    exact ⟨[], by rw [List.append_nil]; exact rfl, rfl, hc, fun a s => Iff.rfl,
      rfl, fun k hk => absurd hk (by simp)⟩
  | cons i rest ih =>
    intro acc p hc ht hb
    have hi : i < p.length := hb i (List.mem_cons_self _ _)
    obtain ⟨ri, di, hdi⟩ := ht i
    have hdilt : di < p.length := rootedN_depth_lt hc hi hdi
    obtain ⟨f1, f2, f3', f4⟩ := ffind_spec p.length p i ri di hdi (le_of_lt hdilt)
    have f3 := f3' hc
    have hstep : (i :: rest).foldl findStep (acc, p) =
        rest.foldl findStep
          (acc ++ [(ffind p.length p i).1], (ffind p.length p i).2) := rfl
    have htot2 : UFtotal (ffind p.length p i).2 := by
      intro a
      obtain ⟨s0, h0⟩ := ht a
      exact ⟨s0, (f4 a s0).mpr h0⟩
    have hb2 : ∀ j ∈ rest, j < (ffind p.length p i).2.length := by
      intro j hj
      rw [f2]
      exact hb j (List.mem_cons_of_mem _ hj)
    obtain ⟨rs2, e1, e2, e3, e4, e5, e6⟩ :=
      ih (acc ++ [(ffind p.length p i).1]) (ffind p.length p i).2 f3 htot2 hb2
    refine ⟨(ffind p.length p i).1 :: rs2, ?_, ?_, ?_, ?_, ?_, ?_⟩
    · rw [hstep, e1, List.append_assoc]
      rfl
    · rw [hstep, e2, f2]
    · rw [hstep]
      exact e3
    · intro a s
      rw [hstep]
      exact (e4 a s).trans (f4 a s)
    · rw [List.length_cons, e5, List.length_cons]
    · intro k hk
      cases k with
      | zero =>
        rw [f1]
        exact ⟨di, hdi⟩
      | succ k2 =>
        have h6 := e6 k2 (by rw [List.length_cons] at hk; omega)
        exact (f4 _ _).mp h6

theorem count_eq_filter_length (l : List Nat) (v : Nat) :
    l.count v = (l.filter (fun x => x == v)).length := by
  induction l with
  | nil => rfl
  | cons a t ih =>
    rw [List.count_cons, List.filter_cons]
    cases h : a == v
    · simp only [h, Bool.false_eq_true, if_false, ih, Nat.add_zero]
    · simp only [h, if_true, ih, List.length_cons]

theorem self_map_getD {α : Type} (l : List α) (d : α) :
    (List.range l.length).map (fun k => l.getD k d) = l := by
  apply List.ext_getElem
  · rw [List.length_map, List.length_range]
  · intro k h1 h2
    rw [List.getElem_map, List.getElem_range, List.getD_eq_getElem?_getD,
      List.getElem?_eq_getElem h2]
    rfl

theorem length_eq_one_of {l : List Nat} {a : Nat} (hmem : a ∈ l)
    (hall : ∀ b ∈ l, b = a) (hnd : l.Nodup) : l.length = 1 := by
  cases l with
  | nil => cases hmem
  | cons x t =>
    cases t with
    | nil => rfl
    | cons y t2 =>
      exfalso
      have hx : x = a := hall x (List.mem_cons_self _ _)
      have hy : y = a := hall y (List.mem_cons_of_mem _ (List.mem_cons_self _ _))
      rw [List.nodup_cons] at hnd
      exact hnd.1 (by rw [hx, ← hy]; exact List.mem_cons_self _ _)

theorem hasPartner_iff {r : String → String → ℚ} {thr : ℚ}
    {texts : List String} {i : Nat} :
    hasPartner r thr texts i = true ↔ ∃ j, simEdgeB r thr texts i j = true := by
  unfold hasPartner
  rw [List.any_eq_true]
  constructor
  · rintro ⟨j, _, hj⟩
    exact ⟨j, hj⟩
  · rintro ⟨j, hj⟩
    exact ⟨j, List.mem_range.mpr (simEdgeB_elim hj).2.1, hj⟩

/-- In the closure of a symmetric relation, anything connected to a node is
the node itself or both endpoints have a neighbour. -/
theorem conn_cases {R : Nat → Nat → Prop} (hsym : ∀ a b, R a b → R b a)
    {a b : Nat} (h : Conn R a b) :
    a = b ∨ ((∃ k, R a k) ∧ (∃ k, R b k)) := by
  induction h with
  | rel x y hxy => exact Or.inr ⟨⟨y, hxy⟩, ⟨x, hsym _ _ hxy⟩⟩
  | refl x => exact Or.inl rfl
  | symm h ih =>
    rcases ih with rfl | ⟨h1, h2⟩
    · exact Or.inl rfl
    · exact Or.inr ⟨h2, h1⟩
  | trans h1 h2 ih1 ih2 =>
    rcases ih1 with rfl | ⟨ha, hb⟩
    · exact ih2
    · rcases ih2 with rfl | ⟨hb2, hc⟩
      · exact Or.inr ⟨ha, hb⟩
      · exact Or.inr ⟨ha, hc⟩

/-- A positional filter over a zip with a value list equals the same filter
expressed on indices. -/
theorem filter_zip_map_eq {α β : Type} (b0 : β) (d0 : α) :
    ∀ (l : List α) (rs : List β) (P : β → Bool) (q : Nat → Bool),
    rs.length = l.length →
    (∀ k, k < l.length → P (rs.getD k b0) = q k) →
    ((l.zip rs).filter fun cr => P cr.2).map Prod.fst =
      ((List.range l.length).filter q).map (fun k => l.getD k d0) := by
  intro l
  induction l with
  | nil =>
    intro rs P q h1 h2
    rfl
  | cons a t iht =>
    intro rs P q h1 h2
    cases rs with
    | nil => simp at h1
    | cons b rt =>
      have hq0 : P b = q 0 := h2 0 (Nat.succ_pos _)
      have hlen : rt.length = t.length := by
        rw [List.length_cons, List.length_cons] at h1
        omega
      have h2' : ∀ k, k < t.length → P (rt.getD k b0) = q (k + 1) := by
        intro k hk
        exact h2 (k + 1) (by rw [List.length_cons]; omega)
      have hzip : ((a :: t).zip (b :: rt)) = (a, b) :: t.zip rt := rfl
      rw [hzip, List.filter_cons,
        show (a :: t).length = t.length + 1 from rfl,
        List.range_succ_eq_map, List.filter_cons, List.filter_map]
      have hcomp : ((fun k => (a :: t).getD k d0) ∘ Nat.succ) =
          fun k => t.getD k d0 := rfl
      have htail := iht rt P (fun k => q (k + 1)) hlen h2'
      have hqsucc : (q ∘ Nat.succ) = fun k => q (k + 1) := rfl
      cases h0 : q 0
      · rw [show P (a, b).2 = q 0 from hq0, h0]
        simp only [Bool.false_eq_true, if_false]
        rw [List.map_map, hqsucc, hcomp]
        exact htail
      · rw [show P (a, b).2 = q 0 from hq0, h0]
        simp only [if_true, List.map_cons, List.map_map]
        rw [hqsucc, hcomp, htail]
        rfl

theorem getD_eq_getElem_of_lt {α : Type} {l : List α} {k : Nat}
    (h : k < l.length) (d : α) : l.getD k d = l[k] := by
  rw [List.getD_eq_getElem?_getD, List.getElem?_eq_getElem h]
  rfl

/-- The `Counter` of the root pass counts 1 for a row exactly when the row
has no similar partner. -/
theorem count_bridge {r : String → String → ℚ} {thr : ℚ} {texts : List String}
    {p0 : List Nat} {rl : List Nat}
    (hlen : rl.length = texts.length)
    (hroot : ∀ k, k < texts.length → Rooted p0 k (rl.getD k 0))
    (hiff : ∀ a b, SameClass p0 a b ↔
      Conn (fun i j => simEdgeB r thr texts i j = true) a b)
    {i : Nat} (hi : i < texts.length) :
    (rl.count (rl.getD i 0) = 1) ↔ hasPartner r thr texts i = false := by
  have hsym : ∀ a b, simEdgeB r thr texts a b = true →
      simEdgeB r thr texts b a = true := by
    intro a b hab
    rw [simEdgeB_symm r thr texts b a]
    exact hab
  have hgen : ∀ v, rl.count v =
      ((List.range texts.length).filter (fun k => rl.getD k 0 == v)).length := by
    intro v
    rw [count_eq_filter_length]
    have h1 : rl.filter (fun x => x == v) =
        ((List.range rl.length).map (fun k => rl.getD k 0)).filter
          (fun x => x == v) := by
      conv_lhs => rw [← self_map_getD rl 0]
    rw [h1, List.filter_map, List.length_map, hlen]
    rfl
  have hcnt : rl.count (rl.getD i 0) =
      ((List.range texts.length).filter
        (fun k => rl.getD k 0 == rl.getD i 0)).length := hgen (rl.getD i 0)
  have hmemL : ∀ k, k ∈ (List.range texts.length).filter
      (fun k => rl.getD k 0 == rl.getD i 0) ↔
      (k < texts.length ∧ rl.getD k 0 = rl.getD i 0) := by
    intro k
    rw [List.mem_filter, List.mem_range, beq_iff_eq]
  have hiL : i ∈ (List.range texts.length).filter
      (fun k => rl.getD k 0 == rl.getD i 0) :=
    (hmemL i).mpr ⟨hi, rfl⟩
  have hsc : ∀ k, k < texts.length →
      (rl.getD k 0 = rl.getD i 0 ↔ SameClass p0 k i) := by
    intro k hk
    constructor
    · intro he
      exact ⟨rl.getD i 0, he ▸ hroot k hk, hroot i hi⟩
    · rintro ⟨s, h1, h2⟩
      rw [rooted_funct (hroot k hk) h1, rooted_funct (hroot i hi) h2]
  rw [hcnt]
  constructor
  · intro hone
    cases hhp : hasPartner r thr texts i
    · rfl
    · exfalso
      obtain ⟨j, hj⟩ := hasPartner_iff.mp hhp
      obtain ⟨hilt, hjlt, hside⟩ := simEdgeB_elim hj
      have hne : i ≠ j := by
        rcases hside with ⟨h0, _⟩ | ⟨h0, _⟩ <;> omega
      have hjL : j ∈ (List.range texts.length).filter
          (fun k => rl.getD k 0 == rl.getD i 0) := by
        refine (hmemL j).mpr ⟨hjlt, ?_⟩
        exact (hsc j hjlt).mpr (sameClass_symm ((hiff i j).mpr (Conn.rel i j hj)))
      have := two_mem_le_length hiL hjL hne
      omega
  · intro hnp
    refine length_eq_one_of hiL ?_ (List.Nodup.filter _ (List.nodup_range _))
    intro b hb
    obtain ⟨hblt, hbeq⟩ := (hmemL b).mp hb
    have hconn : Conn (fun a b => simEdgeB r thr texts a b = true) b i :=
      (hiff b i).mp ((hsc b hblt).mp hbeq)
    rcases conn_cases hsym hconn with h | ⟨_, ⟨k2, hk2⟩⟩
    · exact h
    · exfalso
      have : hasPartner r thr texts i = true := hasPartner_iff.mpr ⟨k2, hk2⟩
      rw [hnp] at this
      cases this

/-- Master characterization of `_near_dedup_remove_all`: the survivors are
exactly the rows with no similar partner, in order. -/
theorem nearDedup_eq (r : String → String → ℚ) (df : List Comment) (thr : ℚ) :
    nearDedupRemoveAll r df thr =
      ((List.range df.length).filter
        (fun k => !hasPartner r thr (df.map Comment.text) k)).map
        (fun k => df.getD k cDefault) := by
  set texts := df.map Comment.text with htexts
  set p0 := nearDedupParent r thr texts with hp0
  set pass1 := findAll p0 (List.range texts.length) with hpass1
  set pass2 := findAll pass1.2 (List.range texts.length) with hpass2
  obtain ⟨q1, q2, q3, q4⟩ := nearDedupParent_spec r thr texts
  rw [← hp0] at q1 q2 q3 q4
  have hb1 : ∀ i ∈ List.range texts.length, i < p0.length := by
    intro i hi
    rw [q1]
    exact List.mem_range.mp hi
  obtain ⟨rs1, e11, e12, e13, e14, e15, e16⟩ :=
    findAll_go (List.range texts.length) [] p0 q2 q3 hb1
  rw [← findAll_eq, ← hpass1] at e11 e12 e13 e14
  have hp11 : pass1.1 = rs1 := by rw [e11, List.nil_append]
  have hroots1 : ∀ k, k < texts.length → Rooted p0 k (rs1.getD k 0) := by
    intro k hk
    have h := e16 k (by rw [List.length_range]; exact hk)
    rw [getD_range0 hk] at h
    exact h
  have hlen1 : rs1.length = texts.length := by rw [e15, List.length_range]
  have htot1 : UFtotal pass1.2 := by
    intro a
    obtain ⟨s0, h0⟩ := q3 a
    exact ⟨s0, (e14 a s0).mpr h0⟩
  have hb2 : ∀ i ∈ List.range texts.length, i < pass1.2.length := by
    intro i hi
    rw [e12, q1]
    exact List.mem_range.mp hi
  obtain ⟨rs2, f21, f22, f23, f24, f25, f26⟩ :=
    findAll_go (List.range texts.length) [] pass1.2 e13 htot1 hb2
  rw [← findAll_eq, ← hpass2] at f21 f22 f23 f24
  have hp21 : pass2.1 = rs2 := by rw [f21, List.nil_append]
  have hroots2 : ∀ k, k < texts.length → Rooted p0 k (rs2.getD k 0) := by
    intro k hk
    have h := f26 k (by rw [List.length_range]; exact hk)
    rw [getD_range0 hk] at h
    exact (e14 _ _).mp h
  have hlen2 : rs2.length = texts.length := by rw [f25, List.length_range]
  have hrs21 : rs2 = rs1 := by
    apply List.ext_getElem
    · rw [hlen2, hlen1]
    · intro k h1 h2
      have hk : k < texts.length := by rw [← hlen2]; exact h1
      rw [← getD_eq_getElem_of_lt h1 0, ← getD_eq_getElem_of_lt h2 0]
      exact rooted_funct (hroots2 k hk) (hroots1 k hk)
  have hntexts : texts.length = df.length := by
    rw [htexts, List.length_map]
  have hlen : pass2.1.length = df.length := by
    rw [hp21, hlen2, hntexts]
  have hq : ∀ k, k < df.length →
      decide (pass1.1.count (pass2.1.getD k 0) = 1) =
        !hasPartner r thr texts k := by
    intro k hk
    have hk2 : k < texts.length := by rw [hntexts]; exact hk
    rw [hp21, hrs21, hp11]
    have hbr := count_bridge hlen1 hroots1 q4 hk2
    cases hhp : hasPartner r thr texts k
    · rw [Bool.not_false]
      exact decide_eq_true (hbr.mpr hhp)
    · rw [Bool.not_true]
      refine decide_eq_false ?_
      intro hcnt
      have h2 := hbr.mp hcnt
      rw [hhp] at h2
      cases h2
  have hmain := filter_zip_map_eq (0 : Nat) cDefault df pass2.1
    (fun v => decide (pass1.1.count v = 1))
    (fun k => !hasPartner r thr texts k) hlen hq
  exact hmain

/-- A row has no similar partner exactly when its connected component in the
similarity graph is a singleton. -/
theorem hasPartner_conn_iff (r : String → String → ℚ) (thr : ℚ)
    (texts : List String) (i : Nat) :
    hasPartner r thr texts i = false ↔
      ∀ j, Conn (fun a b => simEdgeB r thr texts a b = true) i j → j = i := by
  have hsym : ∀ a b, simEdgeB r thr texts a b = true →
      simEdgeB r thr texts b a = true := by
    intro a b hab
    rw [simEdgeB_symm r thr texts b a]
    exact hab
  constructor
  · intro hnp j hconn
    rcases conn_cases hsym hconn with h | ⟨⟨k, hk⟩, _⟩
    · exact h.symm
    · exfalso
      have : hasPartner r thr texts i = true := hasPartner_iff.mpr ⟨k, hk⟩
      rw [hnp] at this
      cases this
  · intro hall
    cases hhp : hasPartner r thr texts i
    · rfl
    · exfalso
      obtain ⟨j, hj⟩ := hasPartner_iff.mp hhp
      have hji := hall j (Conn.rel i j hj)
      rcases (simEdgeB_elim hj).2.2 with ⟨h0, _⟩ | ⟨h0, _⟩ <;> omega

/-- C7: the near-duplicate phase keeps exactly the rows with no similar
partner (equivalently, whose connected component under the
similarity-at-least-threshold relation is a singleton), and for three
comments chained A~B, B~C (even with A, C dissimilar) all three are removed
with reason "Duplicate". -/
theorem C7_transitive_cluster :
    (∀ (r : String → String → ℚ) (thr : ℚ) (df : List Comment),
      nearDedupRemoveAll r df thr =
        ((List.range df.length).filter
          (fun k => !hasPartner r thr (df.map Comment.text) k)).map
          (fun k => df.getD k cDefault)) ∧
    (∀ (r : String → String → ℚ) (thr : ℚ) (texts : List String) (i : Nat),
      hasPartner r thr texts i = false ↔
        ∀ j, Conn (fun a b => simEdgeB r thr texts a b = true) i j → j = i) ∧
    (∀ (caps : Caps) (cfg : Config) (A B C : Comment),
      caps.rapidfuzzAvailable = true → cfg.dedup_threshold < 100 →
      exactDupNorm A ≠ exactDupNorm B → exactDupNorm A ≠ exactDupNorm C →
      exactDupNorm B ≠ exactDupNorm C →
      A.id ≠ B.id → A.id ≠ C.id → B.id ≠ C.id →
      (cfg.dedup_threshold : ℚ) ≤ caps.fuzzRatio A.text B.text →
      (cfg.dedup_threshold : ℚ) ≤ caps.fuzzRatio B.text C.text →
      caps.fuzzRatio A.text C.text < (cfg.dedup_threshold : ℚ) →
      dedupStage caps cfg ([A, B, C], []) =
        ([], [(A.id, "Duplicate"), (B.id, "Duplicate"), (C.id, "Duplicate")])) := by
  refine ⟨fun r thr df => nearDedup_eq r df thr, hasPartner_conn_iff, ?_⟩
  intro caps cfg A B C hrf hthr hnAB hnAC hnBC hiAB hiAC hiBC hsAB hsBC _
  have hgate : (caps.rapidfuzzAvailable && cfg.dedup_threshold < 100) = true := by
    rw [hrf, decide_eq_true hthr]
    rfl
  have hBA : (exactDupNorm B == exactDupNorm A) = false :=
    beq_eq_false_iff_ne.mpr (Ne.symm hnAB)
  have hCA : (exactDupNorm C == exactDupNorm A) = false :=
    beq_eq_false_iff_ne.mpr (Ne.symm hnAC)
  have hAB : (exactDupNorm A == exactDupNorm B) = false :=
    beq_eq_false_iff_ne.mpr hnAB
  have hCB : (exactDupNorm C == exactDupNorm B) = false :=
    beq_eq_false_iff_ne.mpr (Ne.symm hnBC)
  have hAC : (exactDupNorm A == exactDupNorm C) = false :=
    beq_eq_false_iff_ne.mpr hnAC
  have hBC : (exactDupNorm B == exactDupNorm C) = false :=
    beq_eq_false_iff_ne.mpr hnBC
  have hkA : keepExact [A, B, C] A = true := by
    unfold keepExact
    simp only [List.filter_cons, List.filter_nil, beq_self_eq_true, hBA, hCA,
      if_true, Bool.false_eq_true, if_false]
    rfl
  have hkB : keepExact [A, B, C] B = true := by
    unfold keepExact
    simp only [List.filter_cons, List.filter_nil, beq_self_eq_true, hAB, hCB,
      if_true, Bool.false_eq_true, if_false]
    rfl
  have hkC : keepExact [A, B, C] C = true := by
    unfold keepExact
    simp only [List.filter_cons, List.filter_nil, beq_self_eq_true, hAC, hBC,
      if_true, Bool.false_eq_true, if_false]
    rfl
  have hst1 : applyStage (keepExact [A, B, C]) "Duplicate" ([A, B, C], []) =
      ([A, B, C], []) := by
    unfold applyStage
    simp only [List.filter_cons, List.filter_nil, hkA, hkB, hkC, if_true,
      Bool.not_true, Bool.false_eq_true, if_false, List.map_nil,
      List.foldl_nil]
  have h01 : simEdgeB caps.fuzzRatio (cfg.dedup_threshold : ℚ)
      (([A, B, C] : List Comment).map Comment.text) 0 1 = true :=
    simEdgeB_intro (by omega) (by simp) hsAB
  have h12 : simEdgeB caps.fuzzRatio (cfg.dedup_threshold : ℚ)
      (([A, B, C] : List Comment).map Comment.text) 1 2 = true :=
    simEdgeB_intro (by omega) (by simp) hsBC
  have hp0 : hasPartner caps.fuzzRatio (cfg.dedup_threshold : ℚ)
      (([A, B, C] : List Comment).map Comment.text) 0 = true :=
    hasPartner_iff.mpr ⟨1, h01⟩
  have hp1 : hasPartner caps.fuzzRatio (cfg.dedup_threshold : ℚ)
      (([A, B, C] : List Comment).map Comment.text) 1 = true :=
    hasPartner_iff.mpr ⟨2, h12⟩
  have hp2 : hasPartner caps.fuzzRatio (cfg.dedup_threshold : ℚ)
      (([A, B, C] : List Comment).map Comment.text) 2 = true :=
    hasPartner_iff.mpr ⟨1,
      (simEdgeB_symm caps.fuzzRatio (cfg.dedup_threshold : ℚ)
        (([A, B, C] : List Comment).map Comment.text) 2 1).trans h12⟩
  have hnear : nearDedupRemoveAll caps.fuzzRatio [A, B, C]
      (cfg.dedup_threshold : ℚ) = [] := by
    rw [nearDedup_eq]
    rw [show List.range ([A, B, C] : List Comment).length = [0, 1, 2] from rfl]
    simp only [List.filter_cons, List.filter_nil, hp0, hp1, hp2, Bool.not_true,
      Bool.false_eq_true, if_false, List.map_nil]
  have hnd : ([A, B, C].map Comment.id).Nodup := by
    rw [show ([A, B, C].map Comment.id) = [A.id, B.id, C.id] from rfl]
    refine List.nodup_cons.mpr ⟨?_, List.nodup_cons.mpr ⟨?_, List.nodup_singleton _⟩⟩
    · intro h
      rcases List.mem_cons.mp h with h1 | h1
      · exact hiAB h1
      · rcases List.mem_cons.mp h1 with h2 | h2
        · exact hiAC h2
        · cases h2
    · intro h
      rcases List.mem_cons.mp h with h1 | h1
      · exact hiBC h1
      · cases h1
  rw [dedupStage_eq_on caps cfg ([A, B, C], []) hgate]
  rw [hst1, hnear]
  rw [show (([] : List Comment).map Comment.id) = [] from rfl]
  rw [foldl_setdefault_if_eq (([A, B, C], ([] : Reasons)) :
      List Comment × Reasons).2 ([A, B, C].map Comment.id) _ _
      (fun i _ => rfl) hnd]
  rw [show (([A, B, C].map Comment.id).filter
      fun i => !(([] : List String).contains i)) = [A.id, B.id, C.id] from rfl]
  rfl

/-- Witness for C7 at a concrete chained triple under the indel-ratio model
and the default configuration. -/
theorem C7_transitive_cluster_witness :
    dedupStage (capsFor indelRatio) {}
      ([⟨"x", "aaaaaaaaaa", 5⟩, ⟨"y", "aaaaaaaaab", 6⟩,
        ⟨"z", "aaaaaaaabb", 7⟩], []) =
      ([], [("x", "Duplicate"), ("y", "Duplicate"), ("z", "Duplicate")]) :=
  C7_transitive_cluster.2.2 (capsFor indelRatio) {}
    ⟨"x", "aaaaaaaaaa", 5⟩ ⟨"y", "aaaaaaaaab", 6⟩ ⟨"z", "aaaaaaaabb", 7⟩
    rfl (by decide) (by decide) (by decide) (by decide) (by decide) (by decide)
    (by decide) (by decide) (by decide) (by decide)

theorem dropWhile_head_not {p : Char → Bool} :
    ∀ {l : List Char} {a : Char}, (l.dropWhile p).head? = some a →
      p a = false := by
  intro l
  induction l with
  | nil =>
    intro a h
    cases h
  | cons c t ih =>
    intro a h
    rw [List.dropWhile_cons] at h
    by_cases hc : p c
    · rw [if_pos hc] at h
      exact ih h
    · rw [if_neg hc] at h
      injection h with h2
      rw [← h2]
      exact Bool.eq_false_iff.mpr hc

theorem dropWhile_eq_self_of_head {p : Char → Bool} {l : List Char}
    (h : ∀ a, l.head? = some a → p a = false) : l.dropWhile p = l := by
  cases l with
  | nil => rfl
  | cons c t =>
    have hc := h c rfl
    simp only [List.dropWhile_cons, hc, Bool.false_eq_true, if_false]

theorem getLast?_dropWhile_ne_nil {p : Char → Bool} {l : List Char}
    (h : l.dropWhile p ≠ []) : (l.dropWhile p).getLast? = l.getLast? := by
  obtain ⟨pre, hpre⟩ := List.dropWhile_suffix (l := l) p
  conv_rhs => rw [← hpre]
  rw [List.getLast?_append_of_ne_nil pre h]

theorem stripChars_head_not_ws {l : List Char} {a : Char}
    (h : (stripChars l).head? = some a) : a.isWhitespace = false := by
  unfold stripChars at h
  rw [List.head?_reverse] at h
  have hne : (List.dropWhile Char.isWhitespace
      ((l.dropWhile Char.isWhitespace).reverse)) ≠ [] := by
    intro h0
    rw [h0] at h
    cases h
  rw [getLast?_dropWhile_ne_nil hne, List.getLast?_reverse] at h
  exact dropWhile_head_not h

theorem stripChars_getLast_not_ws {l : List Char} {a : Char}
    (h : (stripChars l).getLast? = some a) : a.isWhitespace = false := by
  unfold stripChars at h
  rw [List.getLast?_reverse] at h
  exact dropWhile_head_not h

theorem stripChars_of_clean {l : List Char}
    (h1 : ∀ a, l.head? = some a → a.isWhitespace = false)
    (h2 : ∀ a, l.getLast? = some a → a.isWhitespace = false) :
    stripChars l = l := by
  unfold stripChars
  rw [dropWhile_eq_self_of_head h1]
  rw [dropWhile_eq_self_of_head
    (fun a ha => h2 a (by rwa [List.head?_reverse] at ha))]
  rw [List.reverse_reverse]

theorem stripChars_idem (l : List Char) :
    stripChars (stripChars l) = stripChars l :=
  stripChars_of_clean (fun a h => stripChars_head_not_ws h)
    (fun a h => stripChars_getLast_not_ws h)

theorem pyStrip_idem (s : String) : pyStrip (pyStrip s) = pyStrip s := by
  unfold pyStrip
  rw [show (String.mk (stripChars s.toList)).toList = stripChars s.toList
    from rfl, stripChars_idem]

theorem stripRow_idem (c : Comment) : stripRow (stripRow c) = stripRow c := by
  show ({ c with text := pyStrip (pyStrip c.text) } : Comment) =
    { c with text := pyStrip c.text }
  rw [pyStrip_idem]

theorem map_self_of_mem {α : Type} {f : α → α} :
    ∀ {l : List α}, (∀ a ∈ l, f a = a) → l.map f = l := by
  intro l
  induction l with
  | nil => intro _; rfl
  | cons a t ih =>
    intro h
    rw [List.map_cons, h a (List.mem_cons_self _ _),
      ih (fun b hb => h b (List.mem_cons_of_mem _ hb))]

theorem applyStage_id {keep : Comment → Bool} {L : String} {l : List Comment}
    {rs : Reasons} (h : ∀ c ∈ l, keep c = true) :
    applyStage keep L (l, rs) = (l, rs) := by
  show (l.filter keep,
    ((l.filter fun c => !keep c).map Comment.id).foldl
      (fun r cid => setdefault r cid L) rs) = (l, rs)
  have hf : l.filter keep = l := List.filter_eq_self.mpr h
  have hr : l.filter (fun c => !keep c) = [] := by
    rw [List.filter_eq_nil_iff]
    intro c hc
    rw [h c hc]
    simp
  rw [hf, hr]
  rfl

theorem stApply_id : ∀ (ss : List Stage) (l : List Comment) (rs : Reasons),
    (∀ c ∈ l, passesAll ss c = true) → stApply ss (l, rs) = (l, rs) := by
  intro ss
  induction ss with
  | nil =>
    intro l rs _
    rfl
  | cons s rest ih =>
    intro l rs h
    have h1 : ∀ c ∈ l, s.1 c = true := by
      intro c hc
      have h2 := h c hc
      unfold passesAll at h2
      rw [List.all_cons, Bool.and_eq_true] at h2
      exact h2.1
    have h2 : ∀ c ∈ l, passesAll rest c = true := by
      intro c hc
      have h2 := h c hc
      unfold passesAll at h2
      rw [List.all_cons, Bool.and_eq_true] at h2
      exact h2.2
    show stApply rest (applyStage s.1 s.2 (l, rs)) = (l, rs)
    rw [applyStage_id h1]
    exact ih l rs h2

theorem foldl_if_kept (L : String) :
    ∀ (ids : List String) (kept : List String) (rs : Reasons),
    (∀ i ∈ ids, kept.contains i = true) →
    ids.foldl (fun r cid =>
      if kept.contains cid then r else setdefault r cid L) rs = rs := by
  intro ids
  induction ids with
  | nil =>
    intro kept rs _
    rfl
  | cons i t ih =>
    intro kept rs h
    rw [List.foldl_cons, h i (List.mem_cons_self _ _), if_pos rfl]
    exact ih kept rs (fun j hj => h j (List.mem_cons_of_mem _ hj))

theorem hasPartner_oor {r : String → String → ℚ} {thr : ℚ}
    {texts : List String} {i : Nat} (h : texts.length ≤ i) :
    hasPartner r thr texts i = false := by
  cases hA : hasPartner r thr texts i
  · rfl
  · exfalso
    obtain ⟨j, hj⟩ := hasPartner_iff.mp hA
    have := (simEdgeB_elim hj).1
    omega

theorem keepExact_sublist {el l : List Comment} (hs : List.Sublist el l)
    {c : Comment} (hc : c ∈ el) (hk : keepExact l c = true) :
    keepExact el c = true := by
  unfold keepExact at hk ⊢
  have h1 := of_decide_eq_true hk
  have hsub : List.Sublist
      (el.filter fun c2 => exactDupNorm c2 == exactDupNorm c)
      (l.filter fun c2 => exactDupNorm c2 == exactDupNorm c) := hs.filter _
  have hle := hsub.length_le
  have hmem : c ∈ el.filter fun c2 => exactDupNorm c2 == exactDupNorm c :=
    List.mem_filter.mpr ⟨hc, beq_self_eq_true _⟩
  have hpos := List.length_pos_of_mem hmem
  exact decide_eq_true (by omega)

theorem getD_map {α β : Type} (f : α → β) {l : List α} {k : Nat}
    (h : k < l.length) (d : β) : (l.map f).getD k d = f l[k] := by
  rw [getD_eq_getElem_of_lt (by rw [List.length_map]; exact h) d,
    List.getElem_map]

/-- Post-state of the dedup stage: every survivor has a unique normalized
text among the survivors, and (when the near phase ran) no survivor has a
similar partner among the survivors. -/
theorem dedupStage_post (caps : Caps) (cfg : Config)
    (st : List Comment × Reasons) :
    (∀ c ∈ (dedupStage caps cfg st).1,
      keepExact (dedupStage caps cfg st).1 c = true) ∧
    ((caps.rapidfuzzAvailable && cfg.dedup_threshold < 100) = true →
      ∀ i, hasPartner caps.fuzzRatio (cfg.dedup_threshold : ℚ)
        ((dedupStage caps cfg st).1.map Comment.text) i = false) := by
  have hE : ∀ c ∈ st.1.filter (keepExact st.1),
      keepExact (st.1.filter (keepExact st.1)) c = true := by
    intro c hc
    exact keepExact_sublist (List.filter_sublist _) hc (List.mem_filter.mp hc).2
  by_cases hg : (caps.rapidfuzzAvailable && cfg.dedup_threshold < 100) = true
  · have hon := dedupStage_eq_on caps cfg st hg
    have hfst : (dedupStage caps cfg st).1 =
        nearDedupRemoveAll caps.fuzzRatio (st.1.filter (keepExact st.1))
          (cfg.dedup_threshold : ℚ) := by
      rw [hon, applyStage_fst]
    have hRsub : List.Sublist
        (nearDedupRemoveAll caps.fuzzRatio (st.1.filter (keepExact st.1))
          (cfg.dedup_threshold : ℚ)) (st.1.filter (keepExact st.1)) :=
      nearDedupRemoveAll_sublist _ _ _
    constructor
    · intro c hc
      rw [hfst] at hc ⊢
      exact keepExact_sublist hRsub hc (hE c (hRsub.subset hc))
    · intro _
      rw [hfst]
      have hchar := nearDedup_eq caps.fuzzRatio (st.1.filter (keepExact st.1))
        (cfg.dedup_threshold : ℚ)
      have hpw : ((List.range (st.1.filter (keepExact st.1)).length).filter
          (fun k => !hasPartner caps.fuzzRatio (cfg.dedup_threshold : ℚ)
            ((st.1.filter (keepExact st.1)).map Comment.text) k)).Pairwise
          (· < ·) :=
        List.Pairwise.sublist (List.filter_sublist _) (List.pairwise_lt_range _)
      have hkfacts : ∀ k ∈ (List.range (st.1.filter (keepExact st.1)).length).filter
          (fun k => !hasPartner caps.fuzzRatio (cfg.dedup_threshold : ℚ)
            ((st.1.filter (keepExact st.1)).map Comment.text) k),
          k < (st.1.filter (keepExact st.1)).length ∧
          hasPartner caps.fuzzRatio (cfg.dedup_threshold : ℚ)
            ((st.1.filter (keepExact st.1)).map Comment.text) k = false := by
        intro k hk
        obtain ⟨hk1, hk2⟩ := List.mem_filter.mp hk
        refine ⟨List.mem_range.mp hk1, ?_⟩
        cases hcase : hasPartner caps.fuzzRatio (cfg.dedup_threshold : ℚ)
          ((st.1.filter (keepExact st.1)).map Comment.text) k
        · rfl
        · rw [hcase] at hk2
          cases hk2
      have hlenR : (nearDedupRemoveAll caps.fuzzRatio
          (st.1.filter (keepExact st.1)) (cfg.dedup_threshold : ℚ)).length =
          ((List.range (st.1.filter (keepExact st.1)).length).filter
            (fun k => !hasPartner caps.fuzzRatio (cfg.dedup_threshold : ℚ)
              ((st.1.filter (keepExact st.1)).map Comment.text) k)).length := by
        rw [hchar, List.length_map]
      have hpairtest : ∀ a b, a < b →
          b < (nearDedupRemoveAll caps.fuzzRatio (st.1.filter (keepExact st.1))
            (cfg.dedup_threshold : ℚ)).length →
          ¬ ((cfg.dedup_threshold : ℚ) ≤ caps.fuzzRatio
            (((nearDedupRemoveAll caps.fuzzRatio (st.1.filter (keepExact st.1))
              (cfg.dedup_threshold : ℚ)).map Comment.text).getD a "")
            (((nearDedupRemoveAll caps.fuzzRatio (st.1.filter (keepExact st.1))
              (cfg.dedup_threshold : ℚ)).map Comment.text).getD b "")) := by
        intro a b hab hbR htest
        have hbk : b < ((List.range (st.1.filter (keepExact st.1)).length).filter
            (fun k => !hasPartner caps.fuzzRatio (cfg.dedup_threshold : ℚ)
              ((st.1.filter (keepExact st.1)).map Comment.text) k)).length := by
          rw [← hlenR]
          exact hbR
        have hak : a < ((List.range (st.1.filter (keepExact st.1)).length).filter
            (fun k => !hasPartner caps.fuzzRatio (cfg.dedup_threshold : ℚ)
              ((st.1.filter (keepExact st.1)).map Comment.text) k)).length := by
          omega
        have hilt := List.pairwise_iff_getElem.mp hpw a b hak hbk hab
        have hmema := hkfacts _ (List.getElem_mem hak)
        have hmemb := hkfacts _ (List.getElem_mem hbk)
        have hgetDa : ((nearDedupRemoveAll caps.fuzzRatio
            (st.1.filter (keepExact st.1)) (cfg.dedup_threshold : ℚ)).map
              Comment.text).getD a "" =
            ((st.1.filter (keepExact st.1)).map Comment.text).getD
              (((List.range (st.1.filter (keepExact st.1)).length).filter
                (fun k => !hasPartner caps.fuzzRatio (cfg.dedup_threshold : ℚ)
                  ((st.1.filter (keepExact st.1)).map Comment.text) k))[a]) "" := by
          rw [hchar, List.map_map, getD_map _ hak "", getD_map _ hmema.1 "",
            Function.comp_apply, getD_eq_getElem_of_lt hmema.1 cDefault]
        have hgetDb : ((nearDedupRemoveAll caps.fuzzRatio
            (st.1.filter (keepExact st.1)) (cfg.dedup_threshold : ℚ)).map
              Comment.text).getD b "" =
            ((st.1.filter (keepExact st.1)).map Comment.text).getD
              (((List.range (st.1.filter (keepExact st.1)).length).filter
                (fun k => !hasPartner caps.fuzzRatio (cfg.dedup_threshold : ℚ)
                  ((st.1.filter (keepExact st.1)).map Comment.text) k))[b]) "" := by
          rw [hchar, List.map_map, getD_map _ hbk "", getD_map _ hmemb.1 "",
            Function.comp_apply, getD_eq_getElem_of_lt hmemb.1 cDefault]
        rw [hgetDa, hgetDb] at htest
        have hedge := simEdgeB_intro hilt
          (by rw [List.length_map]; exact hmemb.1) htest
        have hhp := hasPartner_iff.mpr ⟨_, hedge⟩
        rw [hmema.2] at hhp
        cases hhp
      intro i
      by_cases hi : i < (nearDedupRemoveAll caps.fuzzRatio
          (st.1.filter (keepExact st.1)) (cfg.dedup_threshold : ℚ)).length
      · cases hhp : hasPartner caps.fuzzRatio (cfg.dedup_threshold : ℚ)
          ((nearDedupRemoveAll caps.fuzzRatio (st.1.filter (keepExact st.1))
            (cfg.dedup_threshold : ℚ)).map Comment.text) i
        · rfl
        · exfalso
          obtain ⟨j, hj⟩ := hasPartner_iff.mp hhp
          obtain ⟨hilt, hjlt, hside⟩ := simEdgeB_elim hj
          rw [List.length_map] at hjlt
          rcases hside with ⟨h0, htst⟩ | ⟨h0, htst⟩
          · exact hpairtest i j h0 hjlt htst
          · exact hpairtest j i h0 hi htst
      · exact hasPartner_oor (by rw [List.length_map]; omega)
  · have hoff := dedupStage_eq_off caps cfg st (Bool.eq_false_iff.mpr hg)
    constructor
    · intro c hc
      rw [hoff, applyStage_fst] at hc ⊢
      exact hE c hc
    · intro hgate
      exact absurd hgate hg

/-- The dedup stage is the identity on a working set whose normalized texts
are unique and (when the near phase runs) pairwise dissimilar. -/
theorem dedupStage_id (caps : Caps) (cfg : Config) {ret : List Comment}
    (hkeep : ∀ c ∈ ret, keepExact ret c = true)
    (hnp : (caps.rapidfuzzAvailable && cfg.dedup_threshold < 100) = true →
      ∀ i, hasPartner caps.fuzzRatio (cfg.dedup_threshold : ℚ)
        (ret.map Comment.text) i = false) :
    dedupStage caps cfg (ret, []) = (ret, []) := by
  have hap : applyStage (keepExact ret) "Duplicate" (ret, ([] : Reasons)) =
      (ret, []) := applyStage_id hkeep
  by_cases hg : (caps.rapidfuzzAvailable && cfg.dedup_threshold < 100) = true
  · rw [dedupStage_eq_on caps cfg (ret, []) hg, hap]
    have hnear : nearDedupRemoveAll caps.fuzzRatio ret
        (cfg.dedup_threshold : ℚ) = ret := by
      rw [nearDedup_eq]
      have hfall : (List.range ret.length).filter
          (fun k => !hasPartner caps.fuzzRatio (cfg.dedup_threshold : ℚ)
            (ret.map Comment.text) k) = List.range ret.length :=
        List.filter_eq_self.mpr (fun k _ => by rw [hnp hg k]; rfl)
      rw [hfall, self_map_getD]
    rw [hnear]
    rw [foldl_if_kept "Duplicate" (ret.map Comment.id) (ret.map Comment.id) []
      (fun i hi => (memContains _ _).mpr hi)]
  · rw [dedupStage_eq_off caps cfg (ret, []) (Bool.eq_false_iff.mpr hg), hap]

/-- The whole pipeline is the identity on a working set that is already
stripped, passes every pointwise stage, has a defined sentiment everywhere,
and on which the dedup stage is the identity. -/
theorem filter_id (caps : Caps) (cfg : Config) (ret : List Comment)
    (hmap : (ret.map fun c => { c with text := pyStrip c.text }) = ret)
    (hstg : ∀ c ∈ ret, passesAll (stageList caps cfg []) c = true)
    (hsent : ∀ c ∈ ret, passesAll (sentStageList caps cfg) c = true)
    (hall : (cfg.sentiment_filter && caps.vaderAvailable) = true →
      ret.all (fun c => (caps.vaderCompound c.text).isSome) = true)
    (hded : cfg.dedup = true → dedupStage caps cfg (ret, []) = (ret, [])) :
    filter_low_value caps cfg [] ret = Except.ok (ret, []) := by
  rw [filter_eq_stages]
  simp only
  rw [hmap]
  have hstA : stApply (stageList caps cfg []) (ret, ([] : Reasons)) =
      (ret, []) := stApply_id _ ret [] hstg
  rw [hstA]
  have hcond : (cfg.sentiment_filter && caps.vaderAvailable &&
      !(((ret, ([] : Reasons)) : List Comment × Reasons).1.all
        fun c => (caps.vaderCompound c.text).isSome)) = false := by
    by_cases hs : (cfg.sentiment_filter && caps.vaderAvailable) = true
    · have h2 : (((ret, ([] : Reasons)) : List Comment × Reasons).1.all
          fun c => (caps.vaderCompound c.text).isSome) = true := hall hs
      rw [hs, h2]
      rfl
    · rw [Bool.eq_false_iff.mpr hs]
      rfl
  rw [if_neg (by rw [hcond]; exact Bool.false_ne_true)]
  have hstB : stApply (sentStageList caps cfg) (ret, ([] : Reasons)) =
      (ret, []) := stApply_id _ ret [] hsent
  rw [hstB]
  by_cases hd : cfg.dedup = true
  · rw [if_pos hd, hded hd]
  · rw [if_neg hd]

/-- C9: re-running the pipeline on the retained set with the same
configuration and capabilities and an empty blacklist is the identity: it
drops nothing further and records no reasons. -/
theorem C9_idempotent (caps : Caps) (cfg : Config) (df0 ret : List Comment)
    (rs : Reasons)
    (hok : filter_low_value caps cfg [] df0 = Except.ok (ret, rs)) :
    filter_low_value caps cfg [] ret = Except.ok (ret, []) := by
  have hok0 := hok
  rw [filter_eq_stages] at hok
  simp only at hok
  obtain ⟨hsub, -⟩ := ret_shape hok0
  have hstripped : ∀ c ∈ ret, stripRow c = c := by
    intro c hc
    have h1 : c ∈ df0.map stripRow := (List.mem_filter.mp (hsub.subset hc)).1
    obtain ⟨c0, hc0, heq⟩ := List.mem_map.mp h1
    rw [← heq, stripRow_idem]
  have hmap : (ret.map fun c => { c with text := pyStrip c.text }) = ret :=
    map_self_of_mem hstripped
  have hpassfull : ∀ c ∈ ret, passesAll (stageListFull caps cfg []) c = true :=
    fun c hc => (List.mem_filter.mp (hsub.subset hc)).2
  have hslsub : List.Sublist (stageList caps cfg [])
      (stageListFull caps cfg []) := List.sublist_append_left _ _
  have hsentsub : List.Sublist (sentStageList caps cfg)
      (stageListFull caps cfg []) := List.sublist_append_right _ _
  have hpassstage : ∀ c ∈ ret, passesAll (stageList caps cfg []) c = true :=
    fun c hc => passesAll_sublist hslsub c (hpassfull c hc)
  have hpasssent : ∀ c ∈ ret, passesAll (sentStageList caps cfg) c = true :=
    fun c hc => passesAll_sublist hsentsub c (hpassfull c hc)
  by_cases herr : (cfg.sentiment_filter && caps.vaderAvailable &&
      !((stApply (stageList caps cfg [])
        ((df0.map fun c => { c with text := pyStrip c.text }), [])).1.all
          fun c => (caps.vaderCompound c.text).isSome))
  · rw [if_pos herr] at hok
    cases hok
  · rw [if_neg (by simpa using herr)] at hok
    have hallret : (cfg.sentiment_filter && caps.vaderAvailable) = true →
        ret.all (fun c => (caps.vaderCompound c.text).isSome) = true := by
      intro hs
      cases hall0 : ((stApply (stageList caps cfg [])
          ((df0.map fun c => { c with text := pyStrip c.text }), [])).1.all
            fun c => (caps.vaderCompound c.text).isSome)
      · exact absurd (by simp [hs, hall0]) herr
      · refine List.all_eq_true.mpr ?_
        intro c hc
        refine List.all_eq_true.mp hall0 c ?_
        rw [stApply_fst]
        refine List.mem_filter.mpr ⟨?_, hpassstage c hc⟩
        exact (List.mem_filter.mp (hsub.subset hc)).1
    refine filter_id caps cfg ret hmap hpassstage hpasssent hallret ?_
    intro hd
    rw [if_pos hd] at hok
    injection hok with hpair
    have hret1 : ret = (dedupStage caps cfg
        (stApply (sentStageList caps cfg) (stApply (stageList caps cfg [])
          ((df0.map fun c => { c with text := pyStrip c.text }), [])))).1 := by
      rw [hpair]
    obtain ⟨hpost1, hpost2⟩ := dedupStage_post caps cfg
      (stApply (sentStageList caps cfg) (stApply (stageList caps cfg [])
        ((df0.map fun c => { c with text := pyStrip c.text }), [])))
    have hkeepret : ∀ c ∈ ret, keepExact ret c = true := by
      rw [hret1]
      exact hpost1
    have hnpret : (caps.rapidfuzzAvailable && cfg.dedup_threshold < 100) =
        true → ∀ i, hasPartner caps.fuzzRatio (cfg.dedup_threshold : ℚ)
          (ret.map Comment.text) i = false := by
      rw [hret1]
      exact hpost2
    exact dedupStage_id caps cfg hkeepret hnpret

/-- Witness for C9: a successful concrete run whose retained set is a fixed
point of the pipeline. -/
theorem C9_idempotent_witness :
    filter_low_value witnessCaps {} []
      [⟨"a", "this is a great video thanks", 7⟩] =
      Except.ok ([⟨"a", "this is a great video thanks", 7⟩], []) :=
  C9_idempotent witnessCaps {} [⟨"a", " this is a great video thanks ", 7⟩]
    [⟨"a", "this is a great video thanks", 7⟩] [] (by rfl)

end YTC
